import Mathlib

/-!
Verification of the core of the `rir` information-retrieval engine
(positional inverted index, positional traversal primitives, phrase
matching, and the VSM / BM25 / LMD ranking family).

Modelling conventions, matching the Rust source under `src/ircore`:

* `HashMap k v` is modelled as an association list `List (k × v)` with
  the operations `alGet` (= `get`), `alModify` (= `entry(k).and_modify(f).or_insert(f d0)`
  and `entry(k).or_insert_with(d0)` followed by an in-place update `f`).
  Iteration order of a `HashMap` is unspecified in Rust; the model fixes
  the insertion order, which no claim depends on.
* `HashSet v` is modelled as a duplicate-free `List v` with `hsInsert`.
* `u32` / `u64` / `usize` counters are modelled as `Nat`; the source
  never relies on wraparound for these quantities.
* `f32` arithmetic is modelled as real arithmetic (`ℝ`); `f32::log2` is
  `Real.logb 2`.  The float field `average_document_length`, which the
  source keeps equal to `total_document_length / document_count`, is
  modelled by the derived function `average_document_length`.
* A Rust `panic!` / failed `unwrap` can only happen in states that
  violate the index invariants proved below; at such points the model
  returns an (unreachable) default value and the surrounding comment
  says so.
-/

namespace Rir

/-- Association list lookup, modelling `HashMap::get`. -/
def alGet {α β : Type} [DecidableEq α] : List (α × β) → α → Option β
  | [], _ => none
  | (k, v) :: rest, k' => if k = k' then some v else alGet rest k'

/-- Association list update, modelling `HashMap::entry(k)` followed by
`.and_modify(f).or_insert(f d0)` (equivalently `.or_insert_with(|| d0)`
followed by applying `f` to the stored value). -/
def alModify {α β : Type} [DecidableEq α] : List (α × β) → α → β → (β → β) → List (α × β)
  | [], k, d0, f => [(k, f d0)]
  | (k', v) :: rest, k, d0, f =>
      if k' = k then (k', f v) :: rest else (k', v) :: alModify rest k d0 f

/-- `HashSet::insert`, on the duplicate-free-list model of a hash set. -/
def hsInsert (s : List Nat) (x : Nat) : List Nat :=
  if x ∈ s then s else s ++ [x]

/-- Set union `&a | &b`, on the duplicate-free-list model of a hash set. -/
def hsUnion (a b : List Nat) : List Nat :=
  b.foldl hsInsert a

/-- Set intersection `&a & &b`, on the duplicate-free-list model of a hash set. -/
def hsInter (a b : List Nat) : List Nat :=
  a.filter (fun x => decide (x ∈ b))

/-- `Posting` from `index/pl.rs`:
`{ doc_id: DocId, term_frequency: u32, positions: Vec<TermOffset> }`. -/
structure Posting where
  doc_id : Nat
  term_frequency : Nat
  positions : List Nat
deriving DecidableEq, Repr

/-- `PositionList` from `index/pl.rs`.  The `f32` field
`average_document_length` is not stored; it is recomputed by
`average_document_length` below (the source keeps it equal to
`total_document_length / document_count` at all times). -/
structure PositionList where
  postings_lists : List (Nat × List Posting)
  next_doc_id : Nat
  document_frequency : List (Nat × Nat)
  term_frequency : List ((Nat × Nat) × Nat)
  document_length : List Nat
  total_document_length : Nat
  document_count : Nat
  doc_terms : List (Nat × List Nat)
deriving DecidableEq, Repr

/-- `PositionList::new()`. -/
def PositionList.new : PositionList :=
  { postings_lists := []
    next_doc_id := 0
    document_frequency := []
    term_frequency := []
    document_length := []
    total_document_length := 0
    document_count := 0
    doc_terms := [] }

/-- The body of the per-token loop of `add_document`: push `term_offset`
onto the last posting if it belongs to `doc_id`, otherwise append a
fresh posting `{doc_id, 1, [term_offset]}`. -/
def pushOrExtend (postings : List Posting) (doc_id term_offset : Nat) : List Posting :=
  match postings.getLast? with
  | none => postings ++ [⟨doc_id, 1, [term_offset]⟩]
  | some post =>
      if post.doc_id ≠ doc_id then postings ++ [⟨doc_id, 1, [term_offset]⟩]
      else postings.dropLast ++ [⟨post.doc_id, post.term_frequency + 1, post.positions ++ [term_offset]⟩]

/-- One iteration of the `for (seq, tid)` loop of `add_document`.
`first_occurrence` is `!cached_term_id.contains(tid)`. -/
def stepToken (st : PositionList) (doc_id tid term_offset : Nat)
    (first_occurrence : Bool) : PositionList :=
  { st with
    postings_lists :=
      alModify st.postings_lists tid [] (fun pl => pushOrExtend pl doc_id term_offset)
    term_frequency :=
      alModify st.term_frequency (tid, doc_id) 0 (fun count => count + 1)
    document_frequency :=
      if first_occurrence then
        alModify st.document_frequency tid 0 (fun count => count + 1)
      else st.document_frequency
    doc_terms :=
      alModify st.doc_terms doc_id [] (fun s => hsInsert s tid) }

/-- The `for (seq, tid) in term_ids.into_iter().enumerate()` loop of
`add_document`; `off` is `seq + 1` and `seen` is `cached_term_id`. -/
def addTokens (st : PositionList) (doc_id : Nat) :
    List Nat → Nat → List Nat → PositionList
  | [], _, _ => st
  | tid :: rest, off, seen =>
      addTokens (stepToken st doc_id tid off (!seen.contains tid)) doc_id
        rest (off + 1) (hsInsert seen tid)

/-- `PositionList::add_document`; returns the new state together with
the returned `DocId` (the source mutates `self` and returns the id). -/
def add_document (st : PositionList) (term_ids : List Nat) : PositionList × Nat :=
  let doc_id := st.next_doc_id + 1
  let st1 :=
    { st with
      next_doc_id := doc_id
      document_length := st.document_length ++ [term_ids.length]
      total_document_length := st.total_document_length + term_ids.length
      document_count := st.document_count + 1 }
  (addTokens st1 doc_id term_ids 1 [], doc_id)

/-- The states reachable by `add_document` calls from `PositionList::new()`. -/
inductive Reachable : PositionList → Prop
  | new : Reachable PositionList.new
  | add (st : PositionList) (term_ids : List Nat) :
      Reachable st → Reachable (add_document st term_ids).1

/-- `PositionList::get_positions`.  The source `unwrap`s the postings
list of `term`; every caller first checks `get_document_frequency`, so
the `unwrap` only fails in invariant-violating states, where the model
returns `none`. -/
def get_positions (st : PositionList) (term doc : Nat) : Option (List Nat) :=
  match alGet st.postings_lists term with
  | none => none
  | some posts => (posts.find? (fun p => p.doc_id == doc)).map Posting.positions

/-- `PositionList::get_document_frequency`. -/
def get_document_frequency (st : PositionList) (term : Nat) : Option Nat :=
  alGet st.document_frequency term

/-- `PositionList::get_term_frequency`. -/
def get_term_frequency (st : PositionList) (term doc : Nat) : Option Nat :=
  alGet st.term_frequency (term, doc)

/-- `PositionList::get_document_count`. -/
def get_document_count (st : PositionList) : Nat :=
  st.document_count

/-- `PositionList::get_document_length` (`self.document_length[doc - 1]`;
out-of-bounds indexing, a panic in Rust, yields the default `0`). -/
def get_document_length (st : PositionList) (doc : Nat) : Nat :=
  st.document_length.getD (doc - 1) 0

/-- `PositionList::get_term_occurences_num`. -/
def get_term_occurences_num (st : PositionList) (term : Nat) : Nat :=
  match alGet st.postings_lists term with
  | some posts => posts.foldl (fun sum p => sum + p.term_frequency) 0
  | none => 0

/-- `PositionList::docs`: the set of documents containing `term_id`. -/
def docs (st : PositionList) (term_id : Nat) : Option (List Nat) :=
  match alGet st.postings_lists term_id with
  | some postings => some (postings.foldl (fun s p => hsInsert s p.doc_id) [])
  | none => none

/-- `PositionList::docs_contain_any`. -/
def docs_contain_any (st : PositionList) (term_list : List Nat) : List Nat :=
  term_list.foldl
    (fun doc_set term =>
      match docs st term with
      | some res_set => hsUnion doc_set res_set
      | none => doc_set)
    []

/-- `PositionList::docs_contain_all` (fold with an `initialized` flag). -/
def docs_contain_all (st : PositionList) (term_list : List Nat) : Option (List Nat) :=
  (term_list.foldl
    (fun acc term =>
      match docs st term with
      | some res_set =>
          match acc with
          | some doc_set => some (hsInter doc_set res_set)
          | none => some res_set
      | none => acc)
    none)

/-- `PositionList::is_valid_doc_id`. -/
def is_valid_doc_id (st : PositionList) (doc_id : Nat) : Bool :=
  1 ≤ doc_id && doc_id ≤ st.document_count + 1

/-! ## Positional traversal primitives (`ranking/ps.rs`) -/

/-- The `while high_index - low_index > 1` loop of
`PhraseMatchHelpers::binary_search` from `ranking/ps.rs`.  The loop is
modelled with an explicit iteration budget: every iteration strictly
shrinks `high - low`, so the initial value of `high - low` (supplied by
the wrapper below) bounds the number of iterations. -/
def binary_search_loop (positions : List Nat) (current : Nat)
    (test_fn : Nat → Nat → Bool) : Nat → Nat → Nat → Nat × Nat
  | 0, low, high => (low, high)
  | fuel + 1, low, high =>
      if high - low > 1 then
        if test_fn (positions.getD ((high + low) / 2) 0) current then
          binary_search_loop positions current test_fn fuel ((high + low) / 2) high
        else
          binary_search_loop positions current test_fn fuel low ((high + low) / 2)
      else (low, high)

/-- `PhraseMatchHelpers::binary_search` from `ranking/ps.rs`: narrow
`low, high` until `high - low ≤ 1`, then return `retval_fn low high`. -/
def binary_search (positions : List Nat) (low high current : Nat)
    (test_fn : Nat → Nat → Bool) (retval_fn : Nat → Nat → Nat) : Nat :=
  let lh := binary_search_loop positions current test_fn (high - low) low high
  retval_fn lh.1 lh.2

/-- The loop ignores any budget beyond `high - low`. -/
theorem binary_search_loop_fuel (positions : List Nat) (current : Nat)
    (test_fn : Nat → Nat → Bool) :
    ∀ fuel fuel' low high, high - low ≤ fuel → high - low ≤ fuel' →
      binary_search_loop positions current test_fn fuel low high =
      binary_search_loop positions current test_fn fuel' low high := by
  intro fuel
  induction fuel with
  | zero =>
      intro fuel' low high h1 h2
      cases fuel' with
      | zero => rfl
      | succ n =>
          rw [binary_search_loop, binary_search_loop]
          rw [if_neg (by omega)]
  | succ n ih =>
      intro fuel' low high h1 h2
      cases fuel' with
      | zero =>
          rw [binary_search_loop, binary_search_loop]
          rw [if_neg (by omega)]
      | succ m =>
          rw [binary_search_loop, binary_search_loop]
          by_cases hc : high - low > 1
          · rw [if_pos hc, if_pos hc]
            by_cases ht : test_fn (positions.getD ((high + low) / 2) 0) current
            · rw [if_pos ht, if_pos ht]
              exact ih m _ _ (by omega) (by omega)
            · rw [if_neg ht, if_neg ht]
              exact ih m _ _ (by omega) (by omega)
          · rw [if_neg hc, if_neg hc]

/-- `PhraseMatchHelpers::first`. -/
def first (st : PositionList) (doc term : Nat) : Option Nat :=
  match get_document_frequency st term with
  | none => none
  | some _ =>
      match get_positions st term doc with
      | none => none
      | some positions => some (positions.headD 0)

/-- `PhraseMatchHelpers::last`. -/
def last (st : PositionList) (doc term : Nat) : Option Nat :=
  match get_document_frequency st term with
  | none => none
  | some _ =>
      match get_positions st term doc with
      | none => none
      | some positions => positions.getLast?

/-- `PhraseMatchHelpers::next`: smallest recorded position of `term` in
`doc` strictly greater than `after_position`. -/
def next (st : PositionList) (doc term after_position : Nat) : Option Nat :=
  match get_document_frequency st term with
  | none => none
  | some _ =>
      match get_positions st term doc with
      | none => none
      | some positions =>
          match positions.getLast? with
          | none => none
          | some lastPos =>
              if lastPos ≤ after_position then none
              else if positions.headD 0 > after_position then some (positions.headD 0)
              else
                some (positions.getD
                  (binary_search positions 0 (positions.length - 1) after_position
                    (fun v1 v2 => decide (v1 ≤ v2)) (fun _ v2 => v2)) 0)

/-- `PhraseMatchHelpers::prev`: largest recorded position of `term` in
`doc` strictly smaller than `before_position`. -/
def prev (st : PositionList) (doc term before_position : Nat) : Option Nat :=
  match get_document_frequency st term with
  | none => none
  | some _ =>
      match get_positions st term doc with
      | none => none
      | some positions =>
          if positions.headD 0 ≥ before_position then none
          else
            match positions.getLast? with
            | none => none
            | some lastPos =>
              if lastPos < before_position then some lastPos
              else
                some (positions.getD
                  (binary_search positions 0 positions.length before_position
                    (fun v1 v2 => decide (v1 < v2)) (fun v1 _ => v1)) 0)

/-- The forward walk of `next_phrase`: `for term in phrase.iter() { end = next(doc, term, end)? }`. -/
def walkNext (st : PositionList) (doc : Nat) (terms : List Nat) (pos : Nat) : Option Nat :=
  terms.foldlM (fun e term => next st doc term e) pos

/-- The backward walk of `next_phrase`:
`for term in phrase.iter().rev().skip(1) { start = prev(doc, term, start) }`.
A `prev` miss is an `assert!(false)` (panic) in the source — it cannot
happen when the forward walk succeeded on a well-formed index — and is
modelled by `none`. -/
def walkPrev (st : PositionList) (doc : Nat) (terms : List Nat) (pos : Nat) : Option Nat :=
  terms.foldlM (fun s term => prev st doc term s) pos

/-- `PhraseMatchHelpers::next_phrase`, with an explicit recursion budget
`fuel`.  The source recursion terminates because each recursive call
strictly increases `position` (which is bounded by the largest recorded
offset) on any index satisfying the §3 invariants; the wrapper
`next_phrase` below supplies a sufficient budget. -/
def next_phrase_fuel (st : PositionList) (doc : Nat) (phrase : List Nat) :
    Nat → Nat → Option (Nat × Nat)
  | 0, _ => none
  | fuel + 1, position =>
      if phrase.length ≤ 1 then none
      else
        match walkNext st doc phrase position with
        | none => none
        | some e =>
            match walkPrev st doc (phrase.reverse.drop 1) e with
            | none => none
            | some s =>
                if s < e ∧ e - s = phrase.length - 1 then some (s, e)
                else next_phrase_fuel st doc phrase fuel s

/-- Recursion budget: each recursive call of `next_phrase` / loop
iteration of `all_phrase` strictly increases the position, and every
position is at most `total_document_length` on a well-formed index. -/
def phraseFuel (st : PositionList) : Nat :=
  st.total_document_length + 2

/-- `PhraseMatchHelpers::next_phrase`. -/
def next_phrase (st : PositionList) (doc : Nat) (phrase : List Nat) (position : Nat) :
    Option (Nat × Nat) :=
  next_phrase_fuel st doc phrase (phraseFuel st) position

/-- The `loop` of `all_phrase`: repeatedly call `next_phrase`, restarting
from the start offset of the occurrence just found. -/
def all_phrase_loop (st : PositionList) (doc : Nat) (phrase : List Nat) :
    Nat → Nat → List (Nat × Nat)
  | 0, _ => []
  | fuel + 1, pos =>
      match next_phrase st doc phrase pos with
      | some r => r :: all_phrase_loop st doc phrase fuel r.1
      | none => []

/-- `PhraseMatchHelpers::all_phrase`.  For a one-term phrase the source
pushes `(p, p)` for every recorded position and then still enters the
loop (which stops at once since `next_phrase` rejects phrases of length
`≤ 1`). -/
def all_phrase (st : PositionList) (doc : Nat) (phrase : List Nat) : List (Nat × Nat) :=
  if phrase.length = 0 then []
  else if phrase.length = 1 then
    match get_positions st (phrase.headD 0) doc with
    | some positions =>
        (positions.map (fun pos => (pos, pos))) ++
          all_phrase_loop st doc phrase (phraseFuel st) 0
    | none => []
  else all_phrase_loop st doc phrase (phraseFuel st) 0

/-! ## Correctness of `binary_search` -/

theorem binary_search_le (positions : List Nat) (low high current : Nat)
    (test_fn : Nat → Nat → Bool) (retval_fn : Nat → Nat → Nat)
    (h : high - low ≤ 1) :
    binary_search positions low high current test_fn retval_fn = retval_fn low high := by
  unfold binary_search
  rcases Nat.le_one_iff_eq_zero_or_eq_one.1 h with h0 | h1
  · rw [h0, binary_search_loop]
  · rw [h1, binary_search_loop, if_neg (by omega)]

theorem binary_search_gt (positions : List Nat) (low high current : Nat)
    (test_fn : Nat → Nat → Bool) (retval_fn : Nat → Nat → Nat)
    (h : high - low > 1) :
    binary_search positions low high current test_fn retval_fn =
      if test_fn (positions.getD ((high + low) / 2) 0) current then
        binary_search positions ((high + low) / 2) high current test_fn retval_fn
      else
        binary_search positions low ((high + low) / 2) current test_fn retval_fn := by
  unfold binary_search
  obtain ⟨n, hn⟩ : ∃ n, high - low = n + 1 := ⟨high - low - 1, by omega⟩
  rw [hn, binary_search_loop, if_pos h]
  by_cases ht : test_fn (positions.getD ((high + low) / 2) 0) current
  · rw [if_pos ht, if_pos ht,
      binary_search_loop_fuel positions current test_fn n (high - (high + low) / 2)
        ((high + low) / 2) high (by omega) (by omega)]
  · rw [if_neg ht, if_neg ht,
      binary_search_loop_fuel positions current test_fn n ((high + low) / 2 - low)
        low ((high + low) / 2) (by omega) (by omega)]

/-- The loop invariant argument for `binary_search`: any property `P` of
the pair `(low, high)` preserved by the narrowing step holds, with
`high = low + 1`, for the pair passed to `retval_fn`. -/
theorem binary_search_inv (positions : List Nat) (current : Nat)
    (test_fn : Nat → Nat → Bool) (retval_fn : Nat → Nat → Nat)
    (P : Nat → Nat → Prop)
    (hstep : ∀ low high, low + 1 < high → P low high →
        (test_fn (positions.getD ((high + low) / 2) 0) current = true →
          P ((high + low) / 2) high) ∧
        (test_fn (positions.getD ((high + low) / 2) 0) current = false →
          P low ((high + low) / 2))) :
    ∀ n low high, high - low ≤ n → low < high → P low high →
      ∃ l, binary_search positions low high current test_fn retval_fn = retval_fn l (l + 1) ∧
        P l (l + 1) := by
  intro n
  induction n with
  | zero => intro low high h1 h2 _; omega
  | succ n ih =>
      intro low high hle hlt hP
      by_cases hgt : high - low > 1
      · rw [binary_search_gt positions low high current test_fn retval_fn hgt]
        rcases hstep low high (by omega) hP with ⟨ht, hf⟩
        cases htest : test_fn (positions.getD ((high + low) / 2) 0) current
        · rw [if_neg (by simp [htest])]
          exact ih low ((high + low) / 2) (by omega) (by omega) (hf htest)
        · rw [if_pos (by simp [htest])]
          exact ih ((high + low) / 2) high (by omega) (by omega) (ht htest)
      · have hh : high = low + 1 := by omega
        subst hh
        exact ⟨low, binary_search_le positions low (low + 1) current test_fn retval_fn (by omega),
          hP⟩

/-! ## Helpers about sorted position lists -/

theorem sorted_getD_le {l : List Nat} (hs : List.Sorted (· < ·) l) {i j : Nat}
    (hij : i ≤ j) (hj : j < l.length) : l.getD i 0 ≤ l.getD j 0 := by
  rcases Nat.eq_or_lt_of_le hij with h | h
  · subst h; exact le_refl _
  · have hi : i < l.length := lt_trans h hj
    rw [l.getD_eq_getElem 0 hi, l.getD_eq_getElem 0 hj]
    exact le_of_lt (List.pairwise_iff_getElem.1 hs i j hi hj h)

theorem getD_mem {l : List Nat} {i : Nat} (hi : i < l.length) : l.getD i 0 ∈ l := by
  rw [l.getD_eq_getElem 0 hi]
  exact List.getElem_mem hi

theorem mem_getD {l : List Nat} {y : Nat} (hy : y ∈ l) :
    ∃ j, j < l.length ∧ l.getD j 0 = y := by
  rcases List.mem_iff_getElem.1 hy with ⟨j, hj, hval⟩
  exact ⟨j, hj, by rw [l.getD_eq_getElem 0 hj]; exact hval⟩

theorem headD_eq_getD {l : List Nat} (h : l ≠ []) : l.headD 0 = l.getD 0 0 := by
  cases l with
  | nil => exact absurd rfl h
  | cons a t => rfl

theorem getLast?_eq_some_getD {l : List Nat} (h : l ≠ []) :
    l.getLast? = some (l.getD (l.length - 1) 0) := by
  induction l with
  | nil => exact absurd rfl h
  | cons a t ih =>
      cases t with
      | nil => rfl
      | cons b u =>
          have ht : (b :: u) ≠ [] := by simp
          rw [List.getLast?_cons_cons, ih ht]
          simp

theorem getLastD_eq_getD {l : List Nat} (h : l ≠ []) :
    l.getLastD 0 = l.getD (l.length - 1) 0 := by
  rw [List.getLastD_eq_getLast?, getLast?_eq_some_getD h]
  rfl

theorem getLast?_eq_some_getLastD {l : List Nat} (h : l ≠ []) :
    l.getLast? = some (l.getLastD 0) := by
  rw [getLast?_eq_some_getD h, getLastD_eq_getD h]

theorem next_correct {st : PositionList} {doc term : Nat} {P : List Nat} (pos : Nat)
    (hdf : (get_document_frequency st term).isSome)
    (hP : get_positions st term doc = some P)
    (hne : P ≠ []) (hs : List.Sorted (· < ·) P) :
    (next st doc term pos = none ↔ P.getLastD 0 ≤ pos) ∧
    (∀ x, next st doc term pos = some x →
      x ∈ P ∧ pos < x ∧ ∀ y ∈ P, pos < y → x ≤ y) := by
  obtain ⟨dfv, hdfv⟩ := Option.isSome_iff_exists.1 hdf
  have hlen : 0 < P.length := List.length_pos.2 hne
  simp only [next, hdfv, hP, getLast?_eq_some_getLastD hne]
  by_cases hle : P.getLastD 0 ≤ pos
  · rw [if_pos hle]
    exact ⟨iff_of_true rfl hle, by simp⟩
  · rw [if_neg hle]
    have hposlt : pos < P.getLastD 0 := Nat.not_le.1 hle
    by_cases hhead : P.headD 0 > pos
    · rw [if_pos hhead]
      refine ⟨iff_of_false (by simp) hle, ?_⟩
      intro x hx
      obtain rfl : P.headD 0 = x := by simpa using hx
      refine ⟨by rw [headD_eq_getD hne]; exact getD_mem hlen, hhead, ?_⟩
      intro y hy _
      obtain ⟨j, hj, rfl⟩ := mem_getD hy
      rw [headD_eq_getD hne]
      exact sorted_getD_le hs (Nat.zero_le j) hj
    · rw [if_neg hhead]
      have hh0 : P.getD 0 0 ≤ pos := by
        rw [← headD_eq_getD hne]; exact Nat.not_lt.1 hhead
      have hlast : pos < P.getD (P.length - 1) 0 := by
        rw [← getLastD_eq_getD hne]; exact hposlt
      have hlen2 : 2 ≤ P.length := by
        by_contra hc
        have h1 : P.length = 1 := by omega
        rw [h1] at hlast
        exact absurd hlast (by simpa using hh0)
      obtain ⟨l, heq, hl⟩ :=
        binary_search_inv P pos (fun v1 v2 => decide (v1 ≤ v2)) (fun _ v2 => v2)
          (fun l h => h ≤ P.length - 1 ∧ P.getD l 0 ≤ pos ∧ pos < P.getD h 0)
          (by
            intro low high hlh ⟨h1, h2, h3⟩
            constructor
            · intro ht
              exact ⟨h1, of_decide_eq_true ht, h3⟩
            · intro hf
              exact ⟨by omega, h2, Nat.not_le.1 (of_decide_eq_false hf)⟩)
          (P.length - 1) 0 (P.length - 1) (by omega) (by omega)
          ⟨le_refl _, hh0, hlast⟩
      rw [heq]
      refine ⟨iff_of_false (by simp) hle, ?_⟩
      intro x hx
      obtain rfl : P.getD (l + 1) 0 = x := by simpa using hx
      obtain ⟨h1, h2, h3⟩ := hl
      have hl1 : l + 1 < P.length := by omega
      refine ⟨getD_mem hl1, h3, ?_⟩
      intro y hy hposy
      obtain ⟨j, hj, rfl⟩ := mem_getD hy
      by_cases hjl : j ≤ l
      · exact absurd (lt_of_lt_of_le hposy (sorted_getD_le hs hjl (by omega)))
          (Nat.not_lt.2 h2)
      · exact sorted_getD_le hs (by omega) hj

theorem prev_correct {st : PositionList} {doc term : Nat} {P : List Nat} (pos : Nat)
    (hdf : (get_document_frequency st term).isSome)
    (hP : get_positions st term doc = some P)
    (hne : P ≠ []) (hs : List.Sorted (· < ·) P) :
    (prev st doc term pos = none ↔ pos ≤ P.headD 0) ∧
    (∀ x, prev st doc term pos = some x →
      x ∈ P ∧ x < pos ∧ ∀ y ∈ P, y < pos → y ≤ x) := by
  obtain ⟨dfv, hdfv⟩ := Option.isSome_iff_exists.1 hdf
  have hlen : 0 < P.length := List.length_pos.2 hne
  simp only [prev, hdfv, hP, getLast?_eq_some_getLastD hne]
  by_cases hge : P.headD 0 ≥ pos
  · rw [if_pos hge]
    exact ⟨iff_of_true rfl hge, by simp⟩
  · rw [if_neg hge]
    have hheadlt : P.getD 0 0 < pos := by
      rw [← headD_eq_getD hne]; exact Nat.not_le.1 hge
    by_cases hlast : P.getLastD 0 < pos
    · rw [if_pos hlast]
      refine ⟨iff_of_false (by simp) hge, ?_⟩
      intro x hx
      obtain rfl : P.getLastD 0 = x := by simpa using hx
      refine ⟨by rw [getLastD_eq_getD hne]; exact getD_mem (by omega), hlast, ?_⟩
      intro y hy _
      obtain ⟨j, hj, rfl⟩ := mem_getD hy
      rw [getLastD_eq_getD hne]
      exact sorted_getD_le hs (by omega) (by omega)
    · rw [if_neg hlast]
      obtain ⟨l, heq, hl⟩ :=
        binary_search_inv P pos (fun v1 v2 => decide (v1 < v2)) (fun v1 _ => v1)
          (fun l h => l < P.length ∧ h ≤ P.length ∧ P.getD l 0 < pos ∧
            (h < P.length → pos ≤ P.getD h 0))
          (by
            intro low high hlh ⟨h1, h2, h3, h4⟩
            constructor
            · intro ht
              exact ⟨by omega, h2, of_decide_eq_true ht, h4⟩
            · intro hf
              exact ⟨h1, by omega, h3, fun _ => Nat.not_lt.1 (of_decide_eq_false hf)⟩)
          P.length 0 P.length (by omega) hlen
          ⟨hlen, le_refl _, hheadlt, fun h => absurd h (lt_irrefl _)⟩
      rw [heq]
      refine ⟨iff_of_false (by simp) hge, ?_⟩
      intro x hx
      obtain rfl : P.getD l 0 = x := by simpa using hx
      obtain ⟨h1, h2, h3, h4⟩ := hl
      refine ⟨getD_mem h1, h3, ?_⟩
      intro y hy hylt
      obtain ⟨j, hj, rfl⟩ := mem_getD hy
      by_cases hjl : j ≤ l
      · exact sorted_getD_le hs hjl h1
      · have hl1 : l + 1 < P.length := by omega
        have : pos ≤ P.getD (l + 1) 0 := h4 hl1
        exact absurd (lt_of_le_of_lt (le_trans this (sorted_getD_le hs (by omega) hj)) hylt)
          (lt_irrefl _)

/-- C1.  On any `(doc, term)` pair whose recorded position list `P` is
non-empty (and strictly increasing, as `add_document` guarantees),
`first` returns the head of `P` and `last` its last element; `next`
returns the smallest recorded position strictly greater than `pos` and
is `none` exactly when the largest is `≤ pos`; `prev` returns the
largest recorded position strictly smaller than `pos` and is `none`
exactly when the smallest is `≥ pos`.  When no positions are recorded
for the pair, all four primitives return `none`. -/
theorem claim1_traversal_primitives (st : PositionList) (doc term : Nat) :
    (get_positions st term doc = none →
      first st doc term = none ∧ last st doc term = none ∧
      (∀ pos, next st doc term pos = none) ∧
      (∀ pos, prev st doc term pos = none)) ∧
    (∀ P, get_positions st term doc = some P →
      (get_document_frequency st term).isSome →
      P ≠ [] → List.Sorted (· < ·) P →
      first st doc term = some (P.headD 0) ∧
      last st doc term = some (P.getLastD 0) ∧
      (∀ pos,
        (next st doc term pos = none ↔ P.getLastD 0 ≤ pos) ∧
        (∀ x, next st doc term pos = some x →
          x ∈ P ∧ pos < x ∧ ∀ y ∈ P, pos < y → x ≤ y)) ∧
      (∀ pos,
        (prev st doc term pos = none ↔ pos ≤ P.headD 0) ∧
        (∀ x, prev st doc term pos = some x →
          x ∈ P ∧ x < pos ∧ ∀ y ∈ P, y < pos → y ≤ x))) := by
  constructor
  · intro hnone
    cases hdf : get_document_frequency st term with
    | none => exact ⟨by simp [first, hdf], by simp [last, hdf],
        fun pos => by simp [next, hdf], fun pos => by simp [prev, hdf]⟩
    | some dfv => exact ⟨by simp [first, hdf, hnone], by simp [last, hdf, hnone],
        fun pos => by simp [next, hdf, hnone], fun pos => by simp [prev, hdf, hnone]⟩
  · intro P hP hdf hne hs
    obtain ⟨dfv, hdfv⟩ := Option.isSome_iff_exists.1 hdf
    refine ⟨by simp [first, hdfv, hP], ?_, fun pos => next_correct pos hdf hP hne hs,
      fun pos => prev_correct pos hdf hP hne hs⟩
    simp only [last, hdfv, hP]
    rw [getLast?_eq_some_getLastD hne]

/-! ## Soundness of phrase matching (claim C2) -/

/-- `term` occurs at position `p` in `doc`: `p` is recorded on the
posting of `(term, doc)`. -/
def occursAt (st : PositionList) (doc term p : Nat) : Prop :=
  ∃ P, get_positions st term doc = some P ∧ p ∈ P

theorem getD_drop_one {l : List Nat} {i : Nat} (h : i + 1 < l.length) :
    (l.drop 1).getD i 0 = l.getD (1 + i) 0 := by
  have h1 : i < (l.drop 1).length := by simp; omega
  rw [(l.drop 1).getD_eq_getElem 0 h1, l.getD_eq_getElem 0 (by omega), List.getElem_drop]

theorem getD_reverse {l : List Nat} {i : Nat} (h : i < l.length) :
    l.reverse.getD i 0 = l.getD (l.length - 1 - i) 0 := by
  have h1 : i < l.reverse.length := by simpa using h
  rw [l.reverse.getD_eq_getElem 0 h1, l.getD_eq_getElem 0 (by omega), List.getElem_reverse]

/-- Whenever `next` answers, the answer is a recorded position strictly
greater than the queried one (no sortedness is needed for this). -/
theorem next_some {st : PositionList} {doc term pos x : Nat}
    (h : next st doc term pos = some x) : pos < x ∧ occursAt st doc term x := by
  rcases hdf : get_document_frequency st term with _ | dfv
  · simp [next, hdf] at h
  rcases hP : get_positions st term doc with _ | P
  · simp [next, hdf, hP] at h
  rcases hL : P.getLast? with _ | lastPos
  · simp [next, hdf, hP, hL] at h
  have hne : P ≠ [] := List.getLast?_isSome.1 (by simp [hL])
  have hlen : 0 < P.length := List.length_pos.2 hne
  have hlastD : lastPos = P.getD (P.length - 1) 0 := by
    have := getLast?_eq_some_getD hne
    rw [hL] at this
    exact Option.some_injective _ this
  simp only [next, hdf, hP, hL] at h
  by_cases h1 : lastPos ≤ pos
  · rw [if_pos h1] at h
    exact absurd h (by simp)
  · rw [if_neg h1] at h
    by_cases h2 : P.headD 0 > pos
    · rw [if_pos h2] at h
      obtain rfl : P.headD 0 = x := by simpa using h
      exact ⟨h2, P, hP, by rw [headD_eq_getD hne]; exact getD_mem hlen⟩
    · rw [if_neg h2] at h
      have hh0 : P.getD 0 0 ≤ pos := by
        rw [← headD_eq_getD hne]; exact Nat.not_lt.1 h2
      have hlast : pos < P.getD (P.length - 1) 0 := by
        rw [← hlastD]; exact Nat.not_le.1 h1
      have hlen2 : 2 ≤ P.length := by
        by_contra hc
        have hl1 : P.length = 1 := by omega
        rw [hl1] at hlast
        exact absurd hlast (by simpa using hh0)
      obtain ⟨l, heq, hl⟩ :=
        binary_search_inv P pos (fun v1 v2 => decide (v1 ≤ v2)) (fun _ v2 => v2)
          (fun l h => h ≤ P.length - 1 ∧ pos < P.getD h 0)
          (by
            intro low high hlh ⟨hh1, hh2⟩
            exact ⟨fun _ => ⟨hh1, hh2⟩,
              fun hf => ⟨by omega, Nat.not_le.1 (of_decide_eq_false hf)⟩⟩)
          (P.length - 1) 0 (P.length - 1) (by omega) (by omega) ⟨le_refl _, hlast⟩
      rw [heq] at h
      obtain rfl : P.getD (l + 1) 0 = x := by simpa using h
      exact ⟨hl.2, P, hP, getD_mem (by omega)⟩

/-- Whenever `prev` answers, the answer is a recorded position strictly
smaller than the queried one (no sortedness is needed for this). -/
theorem prev_some {st : PositionList} {doc term pos x : Nat}
    (h : prev st doc term pos = some x) : x < pos ∧ occursAt st doc term x := by
  rcases hdf : get_document_frequency st term with _ | dfv
  · simp [prev, hdf] at h
  rcases hP : get_positions st term doc with _ | P
  · simp [prev, hdf, hP] at h
  simp only [prev, hdf, hP] at h
  by_cases h1 : P.headD 0 ≥ pos
  · rw [if_pos h1] at h
    exact absurd h (by simp)
  rw [if_neg h1] at h
  rcases hL : P.getLast? with _ | lastPos
  · rw [hL] at h
    exact absurd h (by simp)
  rw [hL] at h
  simp only at h
  have hne : P ≠ [] := List.getLast?_isSome.1 (by simp [hL])
  have hlen : 0 < P.length := List.length_pos.2 hne
  have hlastD : lastPos = P.getD (P.length - 1) 0 := by
    have := getLast?_eq_some_getD hne
    rw [hL] at this
    exact Option.some_injective _ this
  have hheadlt : P.getD 0 0 < pos := by
    rw [← headD_eq_getD hne]; exact Nat.not_le.1 h1
  by_cases h2 : lastPos < pos
  · rw [if_pos h2] at h
    obtain rfl : lastPos = x := by simpa using h
    exact ⟨h2, P, hP, by rw [hlastD]; exact getD_mem (by omega)⟩
  · rw [if_neg h2] at h
    obtain ⟨l, heq, hl⟩ :=
      binary_search_inv P pos (fun v1 v2 => decide (v1 < v2)) (fun v1 _ => v1)
        (fun l h => l < P.length ∧ h ≤ P.length ∧ P.getD l 0 < pos)
        (by
          intro low high hlh ⟨hh1, hh2, hh3⟩
          exact ⟨fun ht => ⟨by omega, hh2, of_decide_eq_true ht⟩,
            fun _ => ⟨hh1, by omega, hh3⟩⟩)
        P.length 0 P.length (by omega) hlen ⟨hlen, le_refl _, hheadlt⟩
    rw [heq] at h
    obtain rfl : P.getD l 0 = x := by simpa using h
    exact ⟨hl.2.2, P, hP, getD_mem hl.1⟩

theorem walkNext_lt {st : PositionList} {doc : Nat} :
    ∀ {ts : List Nat} {pos e : Nat}, walkNext st doc ts pos = some e →
      pos ≤ e ∧ (ts ≠ [] → pos < e) := by
  intro ts
  induction ts with
  | nil =>
      intro pos e h
      obtain rfl : pos = e := by simpa [walkNext] using h
      exact ⟨le_refl _, fun hc => absurd rfl hc⟩
  | cons t ts ih =>
      intro pos e h
      simp only [walkNext, List.foldlM_cons] at h
      rcases h1 : next st doc t pos with _ | e1
      · rw [h1] at h; exact absurd h (by simp)
      · rw [h1] at h
        have he1 := (next_some h1).1
        have := (ih (by simpa [walkNext] using h)).1
        exact ⟨by omega, fun _ => by omega⟩

theorem walkNext_last {st : PositionList} {doc : Nat} :
    ∀ {ts : List Nat} {pos e : Nat}, walkNext st doc ts pos = some e → ts ≠ [] →
      occursAt st doc (ts.getD (ts.length - 1) 0) e := by
  intro ts
  induction ts with
  | nil => intro pos e _ hc; exact absurd rfl hc
  | cons t ts ih =>
      intro pos e h _
      simp only [walkNext, List.foldlM_cons] at h
      rcases h1 : next st doc t pos with _ | e1
      · rw [h1] at h; exact absurd h (by simp)
      · rw [h1] at h
        rcases List.eq_nil_or_concat ts with hnil | _
        · subst hnil
          obtain rfl : e1 = e := by simpa [walkNext] using h
          exact (next_some h1).2
        · have hts : ts ≠ [] := by
            rintro rfl; simp_all
          have hres := ih (by simpa [walkNext] using h) hts
          have hlen : 0 < ts.length := List.length_pos.2 hts
          have hidx : (t :: ts).getD ((t :: ts).length - 1) 0 = ts.getD (ts.length - 1) 0 := by
            obtain ⟨m, hm⟩ : ∃ m, ts.length = m + 1 := ⟨ts.length - 1, by omega⟩
            simp [hm]
          rwa [hidx]

theorem walkPrev_le {st : PositionList} {doc : Nat} :
    ∀ {ts : List Nat} {pos s : Nat}, walkPrev st doc ts pos = some s →
      s + ts.length ≤ pos := by
  intro ts
  induction ts with
  | nil =>
      intro pos s h
      obtain rfl : pos = s := by simpa [walkPrev] using h
      simp
  | cons t ts ih =>
      intro pos s h
      simp only [walkPrev, List.foldlM_cons] at h
      rcases h1 : prev st doc t pos with _ | s1
      · rw [h1] at h; exact absurd h (by simp)
      · rw [h1] at h
        have hs1 := (prev_some h1).1
        have := ih (by simpa [walkPrev] using h)
        simp only [List.length_cons]
        omega

theorem walkPrev_tight {st : PositionList} {doc : Nat} :
    ∀ {ts : List Nat} {pos s : Nat}, walkPrev st doc ts pos = some s →
      s + ts.length = pos →
      ∀ i < ts.length, occursAt st doc (ts.getD i 0) (pos - 1 - i) := by
  intro ts
  induction ts with
  | nil => intro pos s _ _ i hi; exact absurd hi (by simp)
  | cons t ts ih =>
      intro pos s h htight i hi
      simp only [walkPrev, List.foldlM_cons] at h
      rcases h1 : prev st doc t pos with _ | s1
      · rw [h1] at h; exact absurd h (by simp)
      · rw [h1] at h
        have hs1 := (prev_some h1).1
        have hrest : walkPrev st doc ts s1 = some s := by simpa [walkPrev] using h
        have hle := walkPrev_le hrest
        simp only [List.length_cons] at htight
        have hs1eq : s1 = pos - 1 := by omega
        cases i with
        | zero =>
            have hocc0 := (prev_some h1).2
            rw [hs1eq] at hocc0
            simpa using hocc0
        | succ j =>
            have hj : j < ts.length := by simpa using hi
            have := ih hrest (by omega) j hj
            have harith : s1 - 1 - j = pos - 1 - (j + 1) := by omega
            rw [harith] at this
            simpa using this

/-- Soundness of `next_phrase` (for any recursion budget): a returned
pair `(s, e)` is a contiguous window, `e - s = |phrase| - 1`, and the
`i`-th phrase term occurs at position `s + i`. -/
theorem next_phrase_fuel_sound {st : PositionList} {doc : Nat} {phrase : List Nat} :
    ∀ {fuel pos s e : Nat},
      next_phrase_fuel st doc phrase fuel pos = some (s, e) →
      s < e ∧ e - s = phrase.length - 1 ∧
        ∀ i < phrase.length, occursAt st doc (phrase.getD i 0) (s + i) := by
  intro fuel
  induction fuel with
  | zero => intro pos s e h; exact absurd h (by simp [next_phrase_fuel])
  | succ n ih =>
      intro pos s e h
      by_cases hk : phrase.length ≤ 1
      · simp [next_phrase_fuel, hk] at h
      rw [next_phrase_fuel, if_neg hk] at h
      rcases hwn : walkNext st doc phrase pos with _ | e0
      · rw [hwn] at h; exact absurd h (by simp)
      rw [hwn] at h
      simp only at h
      rcases hwp : walkPrev st doc (phrase.reverse.drop 1) e0 with _ | s0
      · rw [hwp] at h; exact absurd h (by simp)
      rw [hwp] at h
      simp only at h
      by_cases hcond : s0 < e0 ∧ e0 - s0 = phrase.length - 1
      · rw [if_pos hcond] at h
        obtain ⟨rfl, rfl⟩ : s0 = s ∧ e0 = e := by
          have hinj := Option.some_injective _ h
          exact ⟨congrArg Prod.fst hinj, congrArg Prod.snd hinj⟩
        refine ⟨hcond.1, hcond.2, ?_⟩
        have hk2 : 2 ≤ phrase.length := by omega
        have hts_len : (phrase.reverse.drop 1).length = phrase.length - 1 := by simp
        have htight : s0 + (phrase.reverse.drop 1).length = e0 := by
          rw [hts_len]; omega
        have hocc := walkPrev_tight hwp htight
        intro i0 hi0
        rcases Nat.lt_or_ge i0 (phrase.length - 1) with hlt | hge
        · have hidx : phrase.length - 2 - i0 < (phrase.reverse.drop 1).length := by
            rw [hts_len]; omega
          have hstep := hocc (phrase.length - 2 - i0) hidx
          have hd1 : (phrase.length - 2 - i0) + 1 < phrase.reverse.length := by
            rw [List.length_reverse]; omega
          have hd2 : 1 + (phrase.length - 2 - i0) < phrase.length := by omega
          have e1 : (phrase.reverse.drop 1).getD (phrase.length - 2 - i0) 0 =
              phrase.getD i0 0 := by
            rw [getD_drop_one hd1, getD_reverse hd2]
            congr 1
            omega
          have e2 : e0 - 1 - (phrase.length - 2 - i0) = s0 + i0 := by omega
          rwa [e1, e2] at hstep
        · obtain rfl : i0 = phrase.length - 1 := by omega
          have hlast := walkNext_last hwn (by
            intro hc
            rw [hc] at hk2
            simp at hk2)
          have e3 : e0 = s0 + (phrase.length - 1) := by omega
          rw [← e3]
          exact hlast
      · rw [if_neg hcond] at h
        exact ih h

/-- Every pair produced by the `loop` of `all_phrase` comes from a
`next_phrase` call. -/
theorem all_phrase_loop_mem {st : PositionList} {doc : Nat} {phrase : List Nat} :
    ∀ {fuel pos : Nat} {uv : Nat × Nat},
      uv ∈ all_phrase_loop st doc phrase fuel pos →
      ∃ p, next_phrase st doc phrase p = some uv := by
  intro fuel
  induction fuel with
  | zero => intro pos uv h; exact absurd h (by simp [all_phrase_loop])
  | succ n ih =>
      intro pos uv h
      rw [all_phrase_loop] at h
      rcases hnp : next_phrase st doc phrase pos with _ | r
      · rw [hnp] at h; exact absurd h (by simp)
      · rw [hnp] at h
        rcases List.mem_cons.1 h with rfl | htail
        · exact ⟨pos, hnp⟩
        · exact ih htail

theorem next_phrase_short {st : PositionList} {doc : Nat} {phrase : List Nat}
    (h : phrase.length ≤ 1) :
    ∀ fuel pos, next_phrase_fuel st doc phrase fuel pos = none := by
  intro fuel pos
  cases fuel with
  | zero => rfl
  | succ n => simp [next_phrase_fuel, h]

theorem all_phrase_loop_short {st : PositionList} {doc : Nat} {phrase : List Nat}
    (h : phrase.length ≤ 1) :
    ∀ fuel pos, all_phrase_loop st doc phrase fuel pos = [] := by
  intro fuel pos
  cases fuel with
  | zero => rfl
  | succ n => simp [all_phrase_loop, next_phrase, next_phrase_short h]

/-- The synthetic document of scenario S2: one term, occurring at
positions `[1, 2, 3, 4, 5, 6]`. -/
def spamIdx : PositionList :=
  (add_document PositionList.new [1, 1, 1, 1, 1, 1]).1

/-- Witness for C1 on a concrete one-document index: term 1 occupies
positions `[1..6]` of document 1 and `first`/`last` return `1`/`6`. -/
theorem claim1_witness :
    first spamIdx 1 1 = some 1 ∧ last spamIdx 1 1 = some 6 := by
  have h := (claim1_traversal_primitives spamIdx 1 1).2 [1, 2, 3, 4, 5, 6] rfl
    (by decide) (by decide) (by decide)
  exact ⟨h.1, h.2.1⟩

/-- C2.  Every pair `(u, v)` returned by `all_phrase` for a phrase of
length `≥ 2` is a contiguous occurrence: `v - u = |phrase| - 1` and the
`i`-th phrase term (0-based) occurs at position `u + i`.  A one-term
phrase yields `(p, p)` for every recorded position `p` (and `[]` when
the pair has no positions), the empty phrase yields `[]`, and on a
document with one term at positions `[1,2,3,4,5,6]` the triple-repeat
phrase yields exactly `[(1,3), (2,4), (3,5), (4,6)]`. -/
theorem claim2_all_phrase (st : PositionList) (doc : Nat) :
    (∀ phrase : List Nat, 2 ≤ phrase.length →
      ∀ uv ∈ all_phrase st doc phrase,
        uv.1 < uv.2 ∧ uv.2 - uv.1 = phrase.length - 1 ∧
        ∀ i < phrase.length, occursAt st doc (phrase.getD i 0) (uv.1 + i)) ∧
    (∀ t P, get_positions st t doc = some P →
      all_phrase st doc [t] = P.map (fun p => (p, p))) ∧
    (∀ t, get_positions st t doc = none → all_phrase st doc [t] = []) ∧
    all_phrase st doc [] = [] ∧
    all_phrase spamIdx 1 [1, 1, 1] = [(1, 3), (2, 4), (3, 5), (4, 6)] := by
  refine ⟨?_, ?_, ?_, rfl, by decide⟩
  · intro phrase hlen uv huv
    have hloop : uv ∈ all_phrase_loop st doc phrase (phraseFuel st) 0 := by
      have h0 : ¬phrase.length = 0 := by omega
      have h1 : ¬phrase.length = 1 := by omega
      simpa [all_phrase, h0, h1] using huv
    obtain ⟨p, hp⟩ := all_phrase_loop_mem hloop
    obtain ⟨u, v⟩ := uv
    exact next_phrase_fuel_sound hp
  · intro t P hP
    have h1 : ([t] : List Nat).length = 1 := rfl
    simp only [all_phrase, h1]
    norm_num
    rw [hP]
    simp only
    rw [all_phrase_loop_short (by simp), List.append_nil]
  · intro t hP
    have h1 : ([t] : List Nat).length = 1 := rfl
    simp only [all_phrase, h1]
    norm_num
    rw [hP]

/-- Witness for C2 at a concrete input: applying the theorem to the S2
index and the phrase `[1, 1, 1]` with the returned pair `(1, 3)` shows
term `1` occurs at position `3`. -/
theorem claim2_witness : occursAt spamIdx 1 1 3 := by
  have h := (claim2_all_phrase spamIdx 1).1 [1, 1, 1] (by norm_num) (1, 3) (by decide)
  have h2 := h.2.2 2 (by norm_num)
  simpa using h2

/-! ## Closed forms for `add_document` (claims C3 and C8) -/

theorem alGet_alModify_eq {α β : Type} [DecidableEq α] (m : List (α × β)) (k : α)
    (d0 : β) (f : β → β) :
    alGet (alModify m k d0 f) k = some (f ((alGet m k).getD d0)) := by
  induction m with
  | nil => simp [alModify, alGet]
  | cons kv rest ih =>
      obtain ⟨k', v⟩ := kv
      by_cases h : k' = k
      · subst h; simp [alModify, alGet]
      · simp [alModify, alGet, h, ih]

theorem alGet_alModify_ne {α β : Type} [DecidableEq α] (m : List (α × β)) {k j : α}
    (d0 : β) (f : β → β) (h : j ≠ k) :
    alGet (alModify m k d0 f) j = alGet m j := by
  have hkj : ¬k = j := fun hc => h hc.symm
  induction m with
  | nil => simp [alModify, alGet, hkj]
  | cons kv rest ih =>
      obtain ⟨k', v⟩ := kv
      by_cases hk : k' = k
      · subst hk
        simp only [alModify, if_pos rfl, alGet]
        rw [if_neg hkj, if_neg hkj]
      · simp only [alModify, if_neg hk, alGet]
        by_cases hj : k' = j
        · rw [if_pos hj, if_pos hj]
        · rw [if_neg hj, if_neg hj, ih]

theorem mem_hsInsert {s : List Nat} {x y : Nat} :
    x ∈ hsInsert s y ↔ x ∈ s ∨ x = y := by
  unfold hsInsert
  by_cases h : y ∈ s
  · rw [if_pos h]
    exact ⟨Or.inl, fun hc => hc.elim id (fun he => he ▸ h)⟩
  · rw [if_neg h]
    simp

theorem getLast?_mem' {α : Type} {l : List α} {a : α} (h : l.getLast? = some a) :
    a ∈ l := by
  rcases List.eq_nil_or_concat l with rfl | ⟨l', b, rfl⟩
  · simp at h
  · rw [List.concat_eq_append] at h ⊢
    rw [List.getLast?_concat] at h
    obtain rfl := Option.some_injective _ h
    simp

/-- `cached_term_id` after processing the tokens `ts`. -/
def seenAfter (seen : List Nat) (ts : List Nat) : List Nat :=
  ts.foldl hsInsert seen

theorem mem_seenAfter {x : Nat} : ∀ {ts seen : List Nat},
    x ∈ seenAfter seen ts ↔ x ∈ seen ∨ x ∈ ts := by
  intro ts
  induction ts with
  | nil => intro seen; simp [seenAfter]
  | cons t ts ih =>
      intro seen
      show x ∈ seenAfter (hsInsert seen t) ts ↔ _
      rw [ih, mem_hsInsert]
      simp only [List.mem_cons]
      tauto

/-- The 1-based offsets (starting from `off`) at which `t` occurs in the
token list. -/
def occPositions (t : Nat) : List Nat → Nat → List Nat
  | [], _ => []
  | u :: us, off =>
      if u = t then off :: occPositions t us (off + 1) else occPositions t us (off + 1)

theorem occPositions_append {t u : Nat} : ∀ (ts : List Nat) (off : Nat),
    occPositions t (ts ++ [u]) off =
      occPositions t ts off ++ (if u = t then [off + ts.length] else []) := by
  intro ts
  induction ts with
  | nil => intro off; by_cases h : u = t <;> simp [occPositions, h]
  | cons v ts ih =>
      intro off
      by_cases h : v = t <;>
        simp [occPositions, h, ih, Nat.add_assoc, Nat.add_comm 1 ts.length]

theorem occPositions_ge {t : Nat} : ∀ {ts : List Nat} {off p : Nat},
    p ∈ occPositions t ts off → off ≤ p := by
  intro ts
  induction ts with
  | nil => intro off p h; simp [occPositions] at h
  | cons u ts ih =>
      intro off p h
      by_cases hu : u = t
      · rw [occPositions, if_pos hu] at h
        rcases List.mem_cons.1 h with rfl | h2
        · exact le_refl _
        · exact le_trans (Nat.le_succ _) (ih h2)
      · rw [occPositions, if_neg hu] at h
        exact le_trans (Nat.le_succ _) (ih h)

theorem occPositions_sorted {t : Nat} : ∀ (ts : List Nat) (off : Nat),
    List.Sorted (· < ·) (occPositions t ts off) := by
  intro ts
  induction ts with
  | nil => intro off; simp [occPositions]
  | cons u ts ih =>
      intro off
      by_cases hu : u = t
      · rw [occPositions, if_pos hu]
        exact List.Pairwise.cons (fun p hp => lt_of_lt_of_le (Nat.lt_succ_self off)
          (occPositions_ge hp)) (ih (off + 1))
      · rw [occPositions, if_neg hu]
        exact ih (off + 1)

theorem occPositions_eq_nil {t : Nat} : ∀ {ts : List Nat} {off : Nat},
    occPositions t ts off = [] ↔ t ∉ ts := by
  intro ts
  induction ts with
  | nil => intro off; simp [occPositions]
  | cons u ts ih =>
      intro off
      by_cases hu : u = t
      · rw [occPositions, if_pos hu]
        simp [hu]
      · rw [occPositions, if_neg hu]
        rw [ih]
        simp only [List.mem_cons, not_or]
        exact ⟨fun h2 => ⟨fun hc => hu hc.symm, h2⟩, fun h2 => h2.2⟩

theorem addTokens_append (d : Nat) : ∀ (ts : List Nat) (u : Nat) (st : PositionList)
    (off : Nat) (seen : List Nat),
    addTokens st d (ts ++ [u]) off seen =
      stepToken (addTokens st d ts off seen) d u (off + ts.length)
        (!(seenAfter seen ts).contains u) := by
  intro ts
  induction ts with
  | nil => intro u st off seen; simp [addTokens, seenAfter]
  | cons t ts ih =>
      intro u st off seen
      show addTokens (stepToken st d t off (!seen.contains t)) d (ts ++ [u]) (off + 1)
        (hsInsert seen t) = _
      rw [ih]
      have harith : off + 1 + ts.length = off + (t :: ts).length := by
        simp [List.length_cons]; omega
      rw [harith]
      rfl

theorem addTokens_scalars (d : Nat) : ∀ (ts : List Nat) (st : PositionList)
    (off : Nat) (seen : List Nat),
    (addTokens st d ts off seen).next_doc_id = st.next_doc_id ∧
    (addTokens st d ts off seen).document_length = st.document_length ∧
    (addTokens st d ts off seen).total_document_length = st.total_document_length ∧
    (addTokens st d ts off seen).document_count = st.document_count := by
  intro ts
  induction ts with
  | nil => intro st off seen; exact ⟨rfl, rfl, rfl, rfl⟩
  | cons t ts ih =>
      intro st off seen
      exact ih (stepToken st d t off (!seen.contains t)) (off + 1) (hsInsert seen t)

/-- No posting of `st` belongs to document `d` (true of the document id
freshly allocated by `add_document`). -/
def noDocPostings (st : PositionList) (d : Nat) : Prop :=
  ∀ t pl, alGet st.postings_lists t = some pl → ∀ p ∈ pl, p.doc_id ≠ d

theorem pushOrExtend_fresh {pl : List Posting} {d off : Nat}
    (h : ∀ p ∈ pl, p.doc_id ≠ d) :
    pushOrExtend pl d off = pl ++ [⟨d, 1, [off]⟩] := by
  unfold pushOrExtend
  split
  · rfl
  · rename_i post hgl
    rw [if_pos (h post (getLast?_mem' hgl))]

theorem pushOrExtend_extend {pl : List Posting} {post : Posting} {d off : Nat}
    (hd : post.doc_id = d) :
    pushOrExtend (pl ++ [post]) d off =
      pl ++ [⟨post.doc_id, post.term_frequency + 1, post.positions ++ [off]⟩] := by
  unfold pushOrExtend
  split
  · rename_i hgl
    rw [List.getLast?_concat] at hgl
    exact absurd hgl (by simp)
  · rename_i p hgl
    rw [List.getLast?_concat] at hgl
    obtain rfl := Option.some_injective _ hgl
    rw [if_neg (by simp [hd]), List.dropLast_concat]

/-- Closed form of the postings map after the `add_document` token loop:
each term occurring in `ts` gains exactly one posting, for document `d`,
holding its occurrence offsets. -/
theorem addTokens_postings (d off : Nat) (ts : List Nat) :
    ∀ (st : PositionList) (seen : List Nat), noDocPostings st d →
      ∀ t, alGet (addTokens st d ts off seen).postings_lists t =
        if occPositions t ts off = [] then alGet st.postings_lists t
        else some ((alGet st.postings_lists t).getD [] ++
          [⟨d, (occPositions t ts off).length, occPositions t ts off⟩]) := by
  induction ts using List.reverseRecOn with
  | nil =>
      intro st seen _ t
      rw [if_pos (show occPositions t [] off = [] from rfl)]
      rfl
  | append_singleton ts u ih =>
      intro st seen hnd t
      rw [addTokens_append]
      show alGet (alModify (addTokens st d ts off seen).postings_lists u []
        (fun pl => pushOrExtend pl d (off + ts.length))) t = _
      by_cases htu : t = u
      · subst htu
        rw [alGet_alModify_eq, ih st seen hnd t, occPositions_append, if_pos rfl]
        by_cases hocc : occPositions t ts off = []
        · rw [hocc, if_pos rfl]
          simp only [List.nil_append]
          rw [if_neg (by simp)]
          rcases hg : alGet st.postings_lists t with _ | pl
          · simp [@pushOrExtend_fresh [] _ _ (by simp)]
          · simp only [Option.getD_some]
            rw [pushOrExtend_fresh (fun p hp => hnd t pl hg p hp)]
            rfl
        · rw [if_neg hocc, if_neg (by simp)]
          simp only [Option.getD_some]
          rw [pushOrExtend_extend rfl]
          simp only [List.length_append, List.length_cons, List.length_nil]
      · have htu' : ¬u = t := fun hc => htu hc.symm
        rw [alGet_alModify_ne _ _ _ htu, ih st seen hnd t, occPositions_append, if_neg htu']
        simp

/-- Closed form of the term-frequency map after the token loop. -/
theorem addTokens_tf (d off : Nat) (ts : List Nat) :
    ∀ (st : PositionList) (seen : List Nat) (t dd : Nat),
      alGet (addTokens st d ts off seen).term_frequency (t, dd) =
        if dd = d ∧ occPositions t ts off ≠ [] then
          some ((alGet st.term_frequency (t, d)).getD 0 + (occPositions t ts off).length)
        else alGet st.term_frequency (t, dd) := by
  induction ts using List.reverseRecOn with
  | nil =>
      intro st seen t dd
      rw [if_neg (by simp [occPositions])]
      rfl
  | append_singleton ts u ih =>
      intro st seen t dd
      rw [addTokens_append]
      show alGet (alModify (addTokens st d ts off seen).term_frequency (u, d) 0
        (fun c => c + 1)) (t, dd) = _
      by_cases hkey : (t, dd) = (u, d)
      · have h1 : t = u := congrArg Prod.fst hkey
        have h2 : d = dd := (congrArg Prod.snd hkey).symm
        subst h1
        subst h2
        rw [alGet_alModify_eq, ih st seen t d]
        rw [occPositions_append, if_pos rfl]
        by_cases hocc : occPositions t ts off = []
        · rw [if_neg (by simp [hocc]), hocc]
          rw [if_pos (by simp)]
          simp
        · rw [if_pos ⟨rfl, hocc⟩, if_pos (by simp)]
          simp only [Option.getD_some, List.length_append, List.length_cons,
            List.length_nil, Option.some.injEq]
          omega
      · rw [alGet_alModify_ne _ _ _ hkey, ih st seen t dd]
        by_cases htu : t = u
        · subst htu
          have hdd : dd ≠ d := fun hc => hkey (by rw [hc])
          rw [if_neg (by simp [hdd]), if_neg (by simp [hdd])]
        · have htu' : ¬u = t := fun hc => htu hc.symm
          rw [occPositions_append, if_neg htu']
          simp

/-- Closed form of the document-frequency map after the token loop:
each distinct, previously-unseen term of `ts` gains one document. -/
theorem addTokens_df (d off : Nat) (ts : List Nat) :
    ∀ (st : PositionList) (seen : List Nat) (t : Nat),
      alGet (addTokens st d ts off seen).document_frequency t =
        if t ∈ ts ∧ t ∉ seen then
          some ((alGet st.document_frequency t).getD 0 + 1)
        else alGet st.document_frequency t := by
  induction ts using List.reverseRecOn with
  | nil =>
      intro st seen t
      rw [if_neg (by simp)]
      rfl
  | append_singleton ts u ih =>
      intro st seen t
      rw [addTokens_append]
      by_cases hflag : u ∈ seen ∨ u ∈ ts
      · have hb : (!(seenAfter seen ts).contains u) = false := by
          simp [mem_seenAfter]
          tauto
        show alGet (if (!(seenAfter seen ts).contains u) then _ else
          (addTokens st d ts off seen).document_frequency) t = _
        rw [hb, if_neg (by simp), ih st seen t]
        by_cases hc2 : t ∈ ts ++ [u] ∧ t ∉ seen
        · have hc1 : t ∈ ts ∧ t ∉ seen := by
            rcases List.mem_append.1 hc2.1 with h | h
            · exact ⟨h, hc2.2⟩
            · obtain rfl : t = u := by simpa using h
              rcases hflag with h2 | h2
              · exact absurd h2 hc2.2
              · exact ⟨h2, hc2.2⟩
          rw [if_pos hc1, if_pos hc2]
        · have hc1 : ¬(t ∈ ts ∧ t ∉ seen) :=
            fun hh => hc2 ⟨List.mem_append_left _ hh.1, hh.2⟩
          rw [if_neg hc1, if_neg hc2]
      · push_neg at hflag
        have hb : (!(seenAfter seen ts).contains u) = true := by
          simp [mem_seenAfter]
          tauto
        show alGet (if (!(seenAfter seen ts).contains u) then
          alModify (addTokens st d ts off seen).document_frequency u 0 (fun c => c + 1)
          else _) t = _
        rw [hb, if_pos rfl]
        by_cases htu : t = u
        · subst htu
          rw [alGet_alModify_eq, ih st seen t, if_neg (by tauto)]
          rw [if_pos ⟨List.mem_append_right _ (by simp), hflag.1⟩]
        · rw [alGet_alModify_ne _ _ _ htu, ih st seen t]
          by_cases hc1 : t ∈ ts ∧ t ∉ seen
          · rw [if_pos hc1, if_pos ⟨List.mem_append_left _ hc1.1, hc1.2⟩]
          · rw [if_neg hc1, if_neg (fun hh => hc1 ⟨by
              rcases List.mem_append.1 hh.1 with h | h
              · exact h
              · exact absurd (by simpa using h) htu, hh.2⟩)]

theorem addTokens_doc_terms_ne (d : Nat) (ts : List Nat) :
    ∀ (st : PositionList) (off : Nat) (seen : List Nat) (dd : Nat), dd ≠ d →
      alGet (addTokens st d ts off seen).doc_terms dd = alGet st.doc_terms dd := by
  induction ts with
  | nil => intro st off seen dd _; rfl
  | cons t ts ih =>
      intro st off seen dd hdd
      show alGet (addTokens (stepToken st d t off (!seen.contains t)) d ts (off + 1)
        (hsInsert seen t)).doc_terms dd = _
      rw [ih _ _ _ _ hdd]
      exact alGet_alModify_ne _ _ _ hdd

theorem addTokens_doc_terms_mem (d : Nat) (ts : List Nat) :
    ∀ (st : PositionList) (off : Nat) (seen : List Nat) (x : Nat),
      (x ∈ (alGet (addTokens st d ts off seen).doc_terms d).getD [] ↔
        x ∈ (alGet st.doc_terms d).getD [] ∨ x ∈ ts) := by
  induction ts with
  | nil => intro st off seen x; simp [addTokens]
  | cons t ts ih =>
      intro st off seen x
      show x ∈ (alGet (addTokens (stepToken st d t off (!seen.contains t)) d ts (off + 1)
        (hsInsert seen t)).doc_terms d).getD [] ↔ _
      rw [ih]
      show x ∈ (alGet (alModify st.doc_terms d [] (fun s => hsInsert s t)) d).getD [] ∨ _ ↔ _
      rw [alGet_alModify_eq]
      simp only [Option.getD_some, mem_hsInsert, List.mem_cons]
      tauto

/-- Well-formedness of a single posting, relative to the current
document count. -/
def PostingOk (dc : Nat) (p : Posting) : Prop :=
  List.Sorted (· < ·) p.positions ∧ p.positions ≠ [] ∧
  p.term_frequency = p.positions.length ∧ 1 ≤ p.doc_id ∧ p.doc_id ≤ dc

/-- The §3 index invariants, as maintained by `add_document`. -/
def Inv (st : PositionList) : Prop :=
  (∀ t pl, alGet st.postings_lists t = some pl →
     pl ≠ [] ∧ (∀ p ∈ pl, PostingOk st.document_count p) ∧
     List.Pairwise (· < ·) (pl.map Posting.doc_id)) ∧
  (∀ t, alGet st.document_frequency t =
     (alGet st.postings_lists t).map
       (fun pl => pl.countP (fun p => !p.positions.isEmpty))) ∧
  (∀ t dd, alGet st.term_frequency (t, dd) =
     (((alGet st.postings_lists t).getD []).find?
       (fun p => p.doc_id == dd)).map Posting.term_frequency) ∧
  st.document_length.sum = st.total_document_length ∧
  (∀ dd x, x ∈ (alGet st.doc_terms dd).getD [] ↔
     (alGet st.term_frequency (x, dd)).isSome) ∧
  st.next_doc_id = st.document_count

theorem Inv_new : Inv PositionList.new := by
  refine ⟨?_, fun t => rfl, fun t dd => rfl, rfl, ?_, rfl⟩
  · intro t pl h
    simp [alGet, PositionList.new] at h
  · intro dd x
    simp [alGet, PositionList.new]

theorem Inv_add (st : PositionList) (ts : List Nat) (h : Inv st) :
    Inv (add_document st ts).1 := by
  obtain ⟨h1, h2, h3, h4, h5, h6⟩ := h
  have hd1 : 1 ≤ st.next_doc_id + 1 := by omega
  have hdcount : st.next_doc_id + 1 = st.document_count + 1 := by rw [h6]
  have hdgt : st.document_count < st.next_doc_id + 1 := by omega
  -- the intermediate state with the scalars already updated
  set d := st.next_doc_id + 1 with hd
  set st1 : PositionList :=
    { st with
      next_doc_id := d
      document_length := st.document_length ++ [ts.length]
      total_document_length := st.total_document_length + ts.length
      document_count := st.document_count + 1 } with hst1
  have hA : (add_document st ts).1 = addTokens st1 d ts 1 [] := rfl
  have hst1c : st1.document_count = st.document_count + 1 := rfl
  have hst1n : st1.next_doc_id = d := rfl
  have hst1t : st1.total_document_length = st.total_document_length + ts.length := rfl
  have hst1l : st1.document_length = st.document_length ++ [ts.length] := rfl
  have hnd : noDocPostings st1 d := by
    intro t pl hpl p hp
    have hok := (h1 t pl hpl).2.1 p hp
    intro hc
    have hle := hok.2.2.2.2
    omega
  rw [hA]
  have hsc := addTokens_scalars d ts st1 1 []
  have e_post : st1.postings_lists = st.postings_lists := rfl
  have e_df : st1.document_frequency = st.document_frequency := rfl
  have e_tf : st1.term_frequency = st.term_frequency := rfl
  have e_dt : st1.doc_terms = st.doc_terms := rfl
  have hApost := addTokens_postings d 1 ts st1 [] hnd
  have hAtf := addTokens_tf d 1 ts st1 []
  have hAdf := addTokens_df d 1 ts st1 []
  have hAdtm := addTokens_doc_terms_mem d ts st1 1 []
  have hAdtn := addTokens_doc_terms_ne d ts st1 1 []
  rw [e_post] at hApost
  rw [e_tf] at hAtf
  rw [e_df] at hAdf
  rw [e_dt] at hAdtm hAdtn
  have htf_fresh : ∀ x, alGet st.term_frequency (x, d) = none := by
    intro x
    rw [h3 x d]
    rcases hg : alGet st.postings_lists x with _ | pl0
    · rfl
    · simp only [Option.getD_some]
      rw [List.find?_eq_none.2 ?_]
      · rfl
      · intro p hp
        have hok := (h1 x pl0 hg).2.1 p hp
        simp only [beq_iff_eq]
        intro hc
        have hle := hok.2.2.2.2
        omega
  refine ⟨?_, ?_, ?_, ?_, ?_, ?_⟩
  · -- postings well-formedness
    intro t pl' hpl'
    rw [hApost t] at hpl'
    rw [hsc.2.2.2]
    show _ ∧ (∀ p ∈ pl', PostingOk st1.document_count p) ∧ _
    by_cases hocc : occPositions t ts 1 = []
    · rw [if_pos hocc] at hpl'
      obtain ⟨hne, hok, hpw⟩ := h1 t pl' hpl'
      exact ⟨hne, fun p hp =>
        ⟨(hok p hp).1, (hok p hp).2.1, (hok p hp).2.2.1, (hok p hp).2.2.2.1,
          le_trans (hok p hp).2.2.2.2 (Nat.le_succ _)⟩, hpw⟩
    · rw [if_neg hocc] at hpl'
      obtain rfl := (Option.some_injective _ hpl').symm
      refine ⟨by simp, ?_, ?_⟩
      · intro p hp
        rcases List.mem_append.1 hp with hp | hp
        · rcases hg : alGet st.postings_lists t with _ | pl0
          · rw [hg] at hp; simp at hp
          · rw [hg] at hp
            have hok := (h1 t pl0 hg).2.1 p hp
            exact ⟨hok.1, hok.2.1, hok.2.2.1, hok.2.2.2.1,
              le_trans hok.2.2.2.2 (Nat.le_succ _)⟩
        · obtain rfl : p = (⟨d, (occPositions t ts 1).length, occPositions t ts 1⟩ :
              Posting) := by simpa using hp
          refine ⟨occPositions_sorted ts 1, hocc, rfl, hd1, ?_⟩
          show d ≤ st1.document_count
          rw [hst1c]
          omega
      · rw [List.map_append]
        rw [List.pairwise_append]
        refine ⟨?_, by simp, ?_⟩
        · rcases hg : alGet st.postings_lists t with _ | pl0
          · simp
          · simpa using (h1 t pl0 hg).2.2
        · intro a ha b hb
          obtain rfl : b = d := by simpa using hb
          rcases hg : alGet st.postings_lists t with _ | pl0
          · rw [hg] at ha; simp at ha
          · rw [hg] at ha
            simp only [Option.getD_some, List.mem_map] at ha
            obtain ⟨p, hp, rfl⟩ := ha
            have hok := (h1 t pl0 hg).2.1 p hp
            have hle := hok.2.2.2.2
            omega
  · -- document frequency
    intro t
    rw [hAdf t, hApost t]
    by_cases hocc : occPositions t ts 1 = []
    · have htts : t ∉ ts := occPositions_eq_nil.1 hocc
      rw [if_neg (by simp [htts]), if_pos hocc]
      exact h2 t
    · have htts : t ∈ ts := by
        by_contra hc
        exact hocc (occPositions_eq_nil.2 hc)
      rw [if_pos ⟨htts, by simp⟩, if_neg hocc]
      rcases hg : alGet st.postings_lists t with _ | pl0
      · have hdf := h2 t
        rw [hg] at hdf
        rw [hdf]
        simp [List.countP_cons, hocc]
      · have hdf := h2 t
        rw [hg] at hdf
        rw [hdf]
        have hone : List.countP (fun p => !p.positions.isEmpty)
            [(⟨d, (occPositions t ts 1).length, occPositions t ts 1⟩ : Posting)] = 1 := by
          simp [List.countP_cons, hocc]
        show some (List.countP (fun p => !p.positions.isEmpty) pl0 + 1) =
          some (List.countP (fun p => !p.positions.isEmpty)
            (pl0 ++ [⟨d, (occPositions t ts 1).length, occPositions t ts 1⟩]))
        rw [List.countP_append, hone]
  · -- term frequency vs stored posting
    intro t dd
    rw [hAtf t dd, hApost t]
    by_cases hocc : occPositions t ts 1 = []
    · rw [if_neg (by simp [hocc]), if_pos hocc]
      exact h3 t dd
    · rw [if_neg hocc]
      have hfind_old : ((alGet st.postings_lists t).getD []).find?
          (fun p => p.doc_id == d) = none := by
        rcases hg : alGet st.postings_lists t with _ | pl0
        · rfl
        · simp only [Option.getD_some]
          refine List.find?_eq_none.2 ?_
          intro p hp
          have hok := (h1 t pl0 hg).2.1 p hp
          simp only [beq_iff_eq]
          intro hc
          have hle := hok.2.2.2.2
          omega
      by_cases hdd : dd = d
      · subst hdd
        rw [if_pos ⟨rfl, hocc⟩]
        rw [htf_fresh t]
        simp only [Option.getD_none, Option.getD_some, Nat.zero_add]
        rw [List.find?_append, hfind_old]
        simp
      · rw [if_neg (by simp [hdd])]
        rw [h3 t dd]
        simp only [Option.getD_some]
        rw [List.find?_append]
        have hbeq : ((⟨d, (occPositions t ts 1).length, occPositions t ts 1⟩ :
            Posting).doc_id == dd) = false := by
          simp only [beq_eq_false_iff_ne, ne_eq]
          exact fun hc => hdd hc.symm
        have hnew : (List.find? (fun p => p.doc_id == dd)
            [(⟨d, (occPositions t ts 1).length, occPositions t ts 1⟩ : Posting)]) = none := by
          simp [List.find?_cons, hbeq]
        rw [hnew, Option.or_none]
  · -- total document length
    rw [hsc.2.1, hsc.2.2.1]
    show (st.document_length ++ [ts.length]).sum = st.total_document_length + ts.length
    rw [List.sum_append, h4]
    simp
  · -- doc_terms vs term_frequency keys
    intro dd x
    by_cases hdd : dd = d
    · subst hdd
      rw [hAdtm x, hAtf x d]
      have hold : x ∈ (alGet st.doc_terms d).getD [] ↔ False := by
        rw [h5 d x, htf_fresh x]
        simp
      constructor
      · intro hmem
        rcases (hold.1 ∘ id) with _
        rcases hmem with hmem | hmem
        · exact absurd hmem (by rw [hold]; exact id)
        · rw [if_pos ⟨rfl, by
            intro hc
            exact (occPositions_eq_nil.1 hc) hmem⟩]
          rfl
      · intro hsome
        by_cases hx : x ∈ ts
        · exact Or.inr hx
        · rw [if_neg (by simp [occPositions_eq_nil.2 hx]), htf_fresh x] at hsome
          simp at hsome
    · rw [hAdtn dd hdd, hAtf x dd, if_neg (by simp [hdd])]
      exact h5 dd x
  · -- next_doc_id bookkeeping
    rw [hsc.1, hsc.2.2.2]
    show d = st1.document_count
    rw [hst1c]
    exact hdcount

theorem reachable_inv {st : PositionList} (h : Reachable st) : Inv st := by
  induction h with
  | new => exact Inv_new
  | add st ts _ ih => exact Inv_add st ts ih

/-- C3.  After any sequence of `add_document` calls from the empty
index: every posting has a strictly increasing position list whose
length is its `term_frequency` (and per term the posting doc ids are
distinct); `document_frequency[t]` counts the postings of `t` with a
non-empty position list; `term_frequency[(t,d)]` equals the stored
posting's `term_frequency`; the document lengths sum to
`total_document_length`; and `doc_terms[d]` is exactly the set of terms
`t` with `(t, d)` a key of `term_frequency`. -/
theorem claim3_index_invariants (st : PositionList) (h : Reachable st) :
    (∀ t pl, alGet st.postings_lists t = some pl →
      (∀ p ∈ pl, List.Sorted (· < ·) p.positions ∧
        p.term_frequency = p.positions.length) ∧
      (pl.map Posting.doc_id).Nodup) ∧
    (∀ t, (alGet st.document_frequency t).getD 0 =
      ((alGet st.postings_lists t).getD []).countP (fun p => !p.positions.isEmpty)) ∧
    (∀ t dd, alGet st.term_frequency (t, dd) =
      (((alGet st.postings_lists t).getD []).find? (fun p => p.doc_id == dd)).map
        Posting.term_frequency) ∧
    st.document_length.sum = st.total_document_length ∧
    (∀ dd x, x ∈ (alGet st.doc_terms dd).getD [] ↔
      (alGet st.term_frequency (x, dd)).isSome) := by
  obtain ⟨h1, h2, h3, h4, h5, _⟩ := reachable_inv h
  refine ⟨?_, ?_, h3, h4, h5⟩
  · intro t pl hpl
    obtain ⟨_, hok, hpw⟩ := h1 t pl hpl
    exact ⟨fun p hp => ⟨(hok p hp).1, (hok p hp).2.2.1⟩,
      hpw.imp (fun hlt => Nat.ne_of_lt hlt)⟩
  · intro t
    rw [h2 t]
    rcases alGet st.postings_lists t with _ | pl0 <;> rfl

/-- Witness for C3: the invariants instantiated on the two-document
index built from `[1,2,1,3]` and `[3,1]`. -/
theorem claim3_witness :
    ((add_document (add_document PositionList.new [1, 2, 1, 3]).1 [3, 1]).1
      ).document_length.sum =
    ((add_document (add_document PositionList.new [1, 2, 1, 3]).1 [3, 1]).1
      ).total_document_length :=
  (claim3_index_invariants _
    (Reachable.add _ _ (Reachable.add _ _ Reachable.new))).2.2.2.1

/-- Counterexample to C8 as stated: on the freshly created empty index
the stored `next_doc_id` is `0`, not `document_count + 1 = 1`. -/
theorem claim8_counterexample :
    ¬ (PositionList.new.next_doc_id = PositionList.new.document_count + 1) := by
  decide

/-- C8 (amended).  At every reachable state the stored `next_doc_id`
equals `document_count` — the `next_doc_id()` method pre-increments, so
the next id handed out is `document_count + 1`. -/
theorem claim8_next_doc_id (st : PositionList) (h : Reachable st) :
    st.next_doc_id = st.document_count ∧
    ∀ ts, (add_document st ts).2 = st.document_count + 1 := by
  have h6 := (reachable_inv h).2.2.2.2.2
  exact ⟨h6, fun ts => by show st.next_doc_id + 1 = _; rw [h6]⟩

/-- Witness for the amended C8 on a concrete two-document index. -/
theorem claim8_witness :
    (add_document (add_document PositionList.new [1, 2]).1 [2, 3]).2 = 2 :=
  ((claim8_next_doc_id (add_document PositionList.new [1, 2]).1
    (Reachable.add _ _ Reachable.new)).2 [2, 3]).trans (by decide)

/-! ## Sparse vectors (`utils/sparse_vector.rs`) and the ranking family.

`f32` values are modelled as `ℝ`; `f32::log2` is `Real.logb 2` and
`f32::sqrt` is `Real.sqrt`.  The ranking functions are therefore
noncomputable, exactly where the source computes with floats. -/

/-- `SparseVector`, a map-backed sparse `f32` vector. -/
abbrev SparseVector : Type := List (Nat × ℝ)

/-- `SparseVectorOp::vec_set`: `self.entry(id).or_insert(value); (id, value)`.
Insert-only: an existing entry is left untouched.  Returns the updated
vector together with the returned pair. -/
def vec_set (v : SparseVector) (id : Nat) (value : ℝ) : SparseVector × (Nat × ℝ) :=
  (match alGet v id with
   | some _ => v
   | none => v ++ [(id, value)],
   (id, value))

/-- `SparseVectorOp::vec_get`. -/
def vec_get (v : SparseVector) (id : Nat) : ℝ :=
  (alGet v id).getD 0

/-- `SparseVectorOp::vec_len`: the L2 norm. -/
noncomputable def vec_len (v : SparseVector) : ℝ :=
  Real.sqrt (v.foldl (fun length p => length + p.2 * p.2) 0)

/-- `SparseVectorOp::vec_normalize`: divide every stored value by the
vector's L2 norm. -/
noncomputable def vec_normalize (v : SparseVector) : SparseVector :=
  v.map (fun p => (p.1, p.2 / vec_len v))

/-- `SparseVectorOp::vec_dot`: iterate over the shorter vector, summing
products over the keys present in both. -/
noncomputable def vec_dot (a b : SparseVector) : ℝ :=
  let sv := if a.length ≤ b.length then (a, b) else (b, a)
  sv.1.foldl
    (fun result p =>
      match alGet sv.2 p.1 with
      | some sv2_value => result + p.2 * sv2_value
      | none => result)
    0

/-- A `(doc_id, score)` result entry (`DocScore` from `ranking/mod.rs`). -/
structure DocScore where
  docid : Nat
  score : ℝ

/-- The descending-score comparison used by every scorer's
`sort_by(|a, b| a.score.partial_cmp(&b.score).unwrap().reverse())`. -/
def scoreGe (a b : DocScore) : Prop :=
  b.score ≤ a.score

noncomputable instance : DecidableRel scoreGe :=
  fun a b => Real.decidableLE b.score a.score

instance : IsTotal DocScore scoreGe :=
  ⟨fun a b => le_total b.score a.score⟩

instance : IsTrans DocScore scoreGe :=
  ⟨fun _ _ _ h1 h2 => le_trans h2 h1⟩

/-- The stable descending sort applied by every scorer.  (Rust's
`sort_by` is stable; ties — which no claim involves — may be permuted
differently by `insertionSort`.) -/
noncomputable def sortByScoreDesc (scores : List DocScore) : List DocScore :=
  List.insertionSort scoreGe scores

/-- `average_document_length`: the source stores this `f32` field and
keeps it equal to `total_document_length / document_count`. -/
noncomputable def average_document_length (st : PositionList) : ℝ :=
  (st.total_document_length : ℝ) / (st.document_count : ℝ)

/-- The `query_term_freq` map built by `rank_bm25` / `rank_lmd` /
`get_phrase_tfidf_vector`: term id → query-side frequency. -/
def queryTermFreq (term_ids : List Nat) : List (Nat × Nat) :=
  term_ids.foldl (fun m tid => alModify m tid 0 (fun count => count + 1)) []

/-- The per-document score loop body of `OkapiBm25::rank_bm25`
(`k₁ = 1.2`, `b = 0.75`); a term with no `term_frequency` entry is
skipped.  The `document_frequency` `unwrap` is modelled by `getD 0`
(it cannot fail when the term has a `term_frequency` entry). -/
noncomputable def bm25_doc_score (st : PositionList) (qtf : List (Nat × Nat))
    (docid : Nat) : ℝ :=
  let k1 : ℝ := 1.2
  let k1plus1 : ℝ := k1 + 1
  let b : ℝ := 0.75
  let document_count : ℝ := (st.document_count : ℝ)
  let lavg : ℝ := average_document_length st
  let ld : ℝ := (get_document_length st docid : ℝ)
  let k1_b_ld_lavg : ℝ := k1 * (1 - b + b * (ld / lavg))
  qtf.foldl
    (fun score p =>
      match get_term_frequency st p.1 docid with
      | some ftd =>
          let nt : ℝ := ((get_document_frequency st p.1).getD 0 : ℝ)
          let idf := Real.logb 2 (document_count / nt)
          score + (p.2 : ℝ) * (ftd : ℝ) * k1plus1 / (k1_b_ld_lavg + (ftd : ℝ)) * idf
      | none => score)
    0

/-- `OkapiBm25::rank_bm25`. -/
noncomputable def rank_bm25 (st : PositionList) (term_ids : List Nat) : List DocScore :=
  if term_ids.length = 0 then []
  else
    let qtf := queryTermFreq term_ids
    let scores := (docs_contain_any st term_ids).map
      (fun docid => DocScore.mk docid (bm25_doc_score st qtf docid))
    sortByScoreDesc scores

/-- The per-document score loop body of
`LanguageModelDivergence::rank_lmd`. -/
noncomputable def lmd_doc_score (st : PositionList) (qtf : List (Nat × Nat))
    (query_token_num : ℝ) (docid : Nat) : ℝ :=
  let document_count : ℝ := (st.document_count : ℝ)
  let lavg : ℝ := average_document_length st
  let ld : ℝ := (get_document_length st docid : ℝ)
  (qtf.foldl
    (fun score p =>
      match get_term_frequency st p.1 docid with
      | some ftd =>
          let lt : ℝ := (get_term_occurences_num st p.1 : ℝ)
          score + Real.logb 2 (1 + (ftd : ℝ) * document_count / lt) * (p.2 : ℝ)
      | none => score)
    0) - Real.logb 2 (1 + ld / lavg) * query_token_num

/-- `LanguageModelDivergence::rank_lmd`. -/
noncomputable def rank_lmd (st : PositionList) (terms : List Nat) : List DocScore :=
  if terms.length = 0 then []
  else
    let qtf := queryTermFreq terms
    let scores := (docs_contain_any st terms).map
      (fun docid => DocScore.mk docid (lmd_doc_score st qtf (terms.length : ℝ) docid))
    sortByScoreDesc scores

/-- `SchemaDependIndex::get_doc_tfidf_vector`: TF-IDF weights
`(log₂ tf + 1) · log₂ (N / df)` over the document's term set, then
L2-normalised.  The `unwrap`s on `term_frequency` / `document_frequency`
are modelled by `getD 0` (they cannot fail under the §3 invariants). -/
noncomputable def get_doc_tfidf_vector (st : PositionList) (doc : Nat) : SparseVector :=
  let term_set := (alGet st.doc_terms doc).getD []
  let tfidf_vec := term_set.foldl
    (fun v term =>
      let freq : ℝ := ((get_term_frequency st term doc).getD 0 : ℝ)
      let term_tfidf := (Real.logb 2 freq + 1) *
        Real.logb 2 ((st.document_count : ℝ) /
          ((alGet st.document_frequency term).getD 0 : ℝ))
      (vec_set v term term_tfidf).1)
    []
  vec_normalize tfidf_vec

/-- `SchemaDependIndex::get_phrase_tfidf_vector`: the query-side TF-IDF
vector. -/
noncomputable def get_phrase_tfidf_vector (st : PositionList) (terms : List Nat) :
    SparseVector :=
  let query_term_freq := queryTermFreq terms
  let query_tfidf := query_term_freq.foldl
    (fun v p =>
      let freq : ℝ := (p.2 : ℝ)
      let term_tfidf := (Real.logb 2 freq + 1) *
        Real.logb 2 ((st.document_count : ℝ) /
          ((alGet st.document_frequency p.1).getD 0 : ℝ))
      (vec_set v p.1 term_tfidf).1)
    []
  vec_normalize query_tfidf

/-- `VectorSpaceModel::rank_vsm`. -/
noncomputable def rank_vsm (st : PositionList) (term_ids : List Nat) : List DocScore :=
  if term_ids.length = 0 then []
  else
    let query_tfidf := get_phrase_tfidf_vector st term_ids
    let scores := (docs_contain_any st term_ids).filterMap
      (fun doc_id =>
        if is_valid_doc_id st doc_id then
          some (DocScore.mk doc_id (vec_dot query_tfidf (get_doc_tfidf_vector st doc_id)))
        else none)
    sortByScoreDesc scores

/-- `PhraseMatch::search_phrase`: documents containing all phrase terms,
scored by the number of phrase occurrences. -/
noncomputable def search_phrase (st : PositionList) (term_ids : List Nat) : List DocScore :=
  let scores :=
    match docs_contain_all st term_ids with
    | some doc_set =>
        doc_set.filterMap
          (fun doc =>
            let positions := all_phrase st doc term_ids
            if positions.length > 0 then some (DocScore.mk doc (positions.length : ℝ))
            else none)
    | none => []
  sortByScoreDesc scores

/-- `RankingAlgorithm` from `ircore/mod.rs` / `common.rs`. -/
inductive RankingAlgorithm
  | Default
  | ExactMatch
  | VectorSpaceModel
  | OkapiBM25
  | LMD

/-- `Scorer::score`: the algorithm dispatch of `ranking/mod.rs`. -/
noncomputable def score (st : PositionList) (terms : List Nat)
    (ranking : RankingAlgorithm) : List DocScore :=
  if terms.length = 0 then []
  else
    match ranking with
    | RankingAlgorithm.Default => rank_bm25 st terms
    | RankingAlgorithm.ExactMatch => search_phrase st terms
    | RankingAlgorithm.VectorSpaceModel => rank_vsm st terms
    | RankingAlgorithm.OkapiBM25 => rank_bm25 st terms
    | RankingAlgorithm.LMD => rank_lmd st terms

/-! ## Claim C5: every ranked scorer returns a descending, duplicate-free
ranking over the contains-any set. -/

theorem hsInsert_nodup {s : List Nat} {x : Nat} (h : s.Nodup) : (hsInsert s x).Nodup := by
  unfold hsInsert
  by_cases hx : x ∈ s
  · rwa [if_pos hx]
  · rw [if_neg hx]
    rw [List.nodup_append]
    refine ⟨h, by simp, ?_⟩
    simp only [List.disjoint_singleton]
    exact hx

theorem hsUnion_nodup : ∀ {b a : List Nat}, a.Nodup → (hsUnion a b).Nodup := by
  intro b
  induction b with
  | nil => intro a h; exact h
  | cons y b ih =>
      intro a h
      show (hsUnion (hsInsert a y) b).Nodup
      exact ih (hsInsert_nodup h)

theorem docs_contain_any_nodup (st : PositionList) (terms : List Nat) :
    (docs_contain_any st terms).Nodup := by
  suffices h : ∀ acc : List Nat, acc.Nodup →
      (terms.foldl (fun doc_set term =>
        match docs st term with
        | some res_set => hsUnion doc_set res_set
        | none => doc_set) acc).Nodup by
    exact h [] (by simp)
  induction terms with
  | nil => intro acc h; exact h
  | cons t ts ih =>
      intro acc h
      rw [List.foldl_cons]
      rcases hd : docs st t with _ | rs <;> simp only
      · exact ih acc h
      · exact ih _ (hsUnion_nodup h)

theorem map_docid_map (l : List Nat) (f : Nat → ℝ) :
    (l.map (fun docid => DocScore.mk docid (f docid))).map DocScore.docid = l := by
  induction l with
  | nil => rfl
  | cons a l ih => simp [ih]

theorem map_docid_filterMap (l : List Nat) (g : Nat → Option DocScore)
    (hg : ∀ x ds, g x = some ds → ds.docid = x) :
    ((l.filterMap g).map DocScore.docid).Sublist l := by
  induction l with
  | nil => simp
  | cons a l ih =>
      rw [List.filterMap_cons]
      rcases hga : g a with _ | ds
      · exact ih.cons a
      · rw [List.map_cons, hg a ds hga]
        exact ih.cons₂ a

/-- What C5 asserts of one scorer's output: descending by score, only
documents containing at least one query term, each at most once. -/
def rankedOutputOk (st : PositionList) (term_ids : List Nat) (out : List DocScore) : Prop :=
  List.Sorted scoreGe out ∧
  (∀ ds ∈ out, ds.docid ∈ docs_contain_any st term_ids) ∧
  (out.map DocScore.docid).Nodup

theorem sortByScoreDesc_ok (st : PositionList) (term_ids : List Nat)
    (scores : List DocScore)
    (hmem : ∀ ds ∈ scores, ds.docid ∈ docs_contain_any st term_ids)
    (hnodup : (scores.map DocScore.docid).Nodup) :
    rankedOutputOk st term_ids (sortByScoreDesc scores) := by
  refine ⟨List.sorted_insertionSort scoreGe scores, ?_, ?_⟩
  · intro ds hds
    exact hmem ds ((List.perm_insertionSort scoreGe scores).mem_iff.1 hds)
  · exact (((List.perm_insertionSort scoreGe scores).map DocScore.docid).nodup_iff).2 hnodup

theorem rankedOutputOk_nil (st : PositionList) (term_ids : List Nat) :
    rankedOutputOk st term_ids [] :=
  ⟨List.sorted_nil, fun ds hds => absurd hds (by simp), by simp⟩

/-- C5.  For each of the three ranked scorers, on any index and query
term list, the returned list is sorted by score descending, contains
only documents holding at least one query term, and lists each document
at most once. -/
theorem claim5_ranked_scorers (st : PositionList) (term_ids : List Nat) :
    rankedOutputOk st term_ids (rank_vsm st term_ids) ∧
    rankedOutputOk st term_ids (rank_bm25 st term_ids) ∧
    rankedOutputOk st term_ids (rank_lmd st term_ids) := by
  by_cases hlen : term_ids.length = 0
  · rw [rank_vsm, rank_bm25, rank_lmd, if_pos hlen, if_pos hlen, if_pos hlen]
    exact ⟨rankedOutputOk_nil st term_ids, rankedOutputOk_nil st term_ids,
      rankedOutputOk_nil st term_ids⟩
  · refine ⟨?_, ?_, ?_⟩
    · rw [rank_vsm, if_neg hlen]
      apply sortByScoreDesc_ok
      · intro ds hds
        obtain ⟨x, hx, hds⟩ := List.mem_filterMap.1 hds
        by_cases hv : is_valid_doc_id st x
        · rw [if_pos hv] at hds
          obtain rfl := Option.some_injective _ hds
          exact hx
        · rw [if_neg hv] at hds
          exact absurd hds (by simp)
      · refine List.Nodup.sublist (map_docid_filterMap _ _ ?_)
          (docs_contain_any_nodup st term_ids)
        intro x ds hds
        by_cases hv : is_valid_doc_id st x
        · rw [if_pos hv] at hds
          obtain rfl := Option.some_injective _ hds
          rfl
        · rw [if_neg hv] at hds
          exact absurd hds (by simp)
    · rw [rank_bm25, if_neg hlen]
      apply sortByScoreDesc_ok
      · intro ds hds
        obtain ⟨x, hx, rfl⟩ := List.mem_map.1 hds
        exact hx
      · rw [map_docid_map]
        exact docs_contain_any_nodup st term_ids
    · rw [rank_lmd, if_neg hlen]
      apply sortByScoreDesc_ok
      · intro ds hds
        obtain ⟨x, hx, rfl⟩ := List.mem_map.1 hds
        exact hx
      · rw [map_docid_map]
        exact docs_contain_any_nodup st term_ids

/-! ## Claims C9 (doc-id validity) and C10 (`vec_set` is insert-only) -/

/-- Counterexample to C9 as stated: on the empty index the code accepts
doc id `1` although the claimed valid range `[1, document_count]` is
empty. -/
theorem claim9_counterexample :
    is_valid_doc_id PositionList.new 1 = true ∧
    ¬ (1 ≤ (1 : Nat) ∧ (1 : Nat) ≤ PositionList.new.document_count) := by
  decide

/-- C9 (amended).  `is_valid_doc_id` accepts exactly the range
`[1, document_count + 1]`: the upper bound in the source is
`document_count + 1`, one more than the spec's `[1, document_count]`. -/
theorem claim9_is_valid_doc_id (st : PositionList) (doc_id : Nat) :
    is_valid_doc_id st doc_id = true ↔
      1 ≤ doc_id ∧ doc_id ≤ st.document_count + 1 := by
  simp [is_valid_doc_id]

/-- C10.  `vec_set` returns the pair `(id, value)` but only stores
`value` when `id` is absent: an existing entry keeps its old value and
the vector is unchanged. -/
theorem claim10_vec_set (v : SparseVector) (id : Nat) (x : ℝ) :
    (vec_set v id x).2 = (id, x) ∧
    (∀ x0, alGet v id = some x0 →
      (vec_set v id x).1 = v ∧ alGet (vec_set v id x).1 id = some x0) ∧
    (alGet v id = none → alGet (vec_set v id x).1 id = some x) := by
  refine ⟨rfl, ?_, ?_⟩
  · intro x0 h
    have h1 : (vec_set v id x).1 = v := by
      simp only [vec_set, h]
    exact ⟨h1, by rw [h1]; exact h⟩
  · intro h
    have h1 : (vec_set v id x).1 = v ++ [(id, x)] := by
      simp only [vec_set, h]
    rw [h1]
    clear h1
    induction v with
    | nil => simp [alGet]
    | cons kv rest ih =>
        obtain ⟨k, val⟩ := kv
        by_cases hk : k = id
        · subst hk
          simp [alGet] at h
        · simp only [alGet, if_neg hk] at h
          simpa [alGet, hk] using ih h

/-- Witness for C10: on the vector `[(1, 5)]`, setting key `1` to `7`
leaves the stored value `5` and returns `(1, 7)`. -/
theorem claim10_witness :
    (vec_set [(1, (5 : ℝ))] 1 7).2 = (1, 7) ∧
    alGet (vec_set [(1, (5 : ℝ))] 1 7).1 1 = some 5 := by
  have h := claim10_vec_set [(1, (5 : ℝ))] 1 7
  exact ⟨h.1, (h.2.1 5 rfl).2⟩

/-! ## Claim C6: the unknown-term policy of `Engine::exec_query`.

The analyzer's tokenisation (Unicode/Chinese segmentation,
case-folding) is upstream of the dictionary lookup and out of scope;
the model takes the already-tokenised query as a `List String` and the
dictionary as its `term string → TID` map, exactly what
`Dictionary::get_ids` consumes. -/

/-- `Dictionary::get_ids`: split tokens into known term ids and unknown
token strings. -/
def get_ids (dict : List (String × Nat)) (terms : List String) :
    List Nat × List String :=
  terms.foldl
    (fun acc term =>
      match alGet dict term with
      | some id => (acc.1 ++ [id], acc.2)
      | none => (acc.1, acc.2 ++ [term]))
    ([], [])

/-- `Query::parse`: resolve the tokens; under `ignore_non_exist_term =
false` any unknown token empties the result. -/
def Query.parse (tokens : List String) (ignore_non_exist_term : Bool)
    (dict : List (String × Nat)) : List Nat :=
  let resolved := get_ids dict tokens
  if (!ignore_non_exist_term) = true ∧ 0 < resolved.2.length then []
  else resolved.1

/-- The `Engine` state relevant to query execution: the positional
index, the analyzer's dictionary, and the `doc_id → path` map. -/
structure Engine where
  index : PositionList
  dict : List (String × Nat)
  doc_meta : List (Nat × String)

/-- `Engine::exec_query`: choose the unknown-term policy from the
algorithm, parse, score, and resolve doc ids to paths. -/
noncomputable def exec_query (e : Engine) (tokens : List String)
    (ranking : RankingAlgorithm) : List String :=
  let ignore_non_exist_term : Bool :=
    match ranking with
    | RankingAlgorithm.ExactMatch => false
    | _ => true
  let term_ids := Query.parse tokens ignore_non_exist_term e.dict
  (score e.index term_ids ranking).filterMap (fun ds => alGet e.doc_meta ds.docid)

theorem get_ids_eq (dict : List (String × Nat)) :
    ∀ (tokens : List String) (acc1 : List Nat) (acc2 : List String),
      tokens.foldl
        (fun acc term =>
          match alGet dict term with
          | some id => (acc.1 ++ [id], acc.2)
          | none => (acc.1, acc.2 ++ [term]))
        (acc1, acc2) =
      (acc1 ++ tokens.filterMap (alGet dict),
        acc2 ++ tokens.filter (fun t => (alGet dict t).isNone)) := by
  intro tokens
  induction tokens with
  | nil => intro acc1 acc2; simp
  | cons t ts ih =>
      intro acc1 acc2
      rw [List.foldl_cons]
      rcases hg : alGet dict t with _ | id <;> simp only
      · rw [ih]
        simp [List.filterMap_cons, List.filter_cons, hg]
      · rw [ih]
        simp [List.filterMap_cons, List.filter_cons, hg]

theorem get_ids_spec (dict : List (String × Nat)) (tokens : List String) :
    get_ids dict tokens =
      (tokens.filterMap (alGet dict),
        tokens.filter (fun t => (alGet dict t).isNone)) := by
  unfold get_ids
  rw [get_ids_eq]
  simp

theorem filterMap_filter_isSome {α β : Type} (f : α → Option β) (l : List α) :
    (l.filter (fun t => (f t).isSome)).filterMap f = l.filterMap f := by
  induction l with
  | nil => rfl
  | cons a l ih =>
      rw [List.filter_cons, List.filterMap_cons]
      rcases hf : f a with _ | b
      · simp only [hf, Option.isSome_none]
        simpa using ih
      · simp only [hf, Option.isSome_some]
        simp [List.filterMap_cons, hf, ih]

/-- C6.  Under `ExactMatch`, one unknown query token empties both the
parsed term list and the result; under every other algorithm unknown
tokens are dropped before scoring, so the result is the same as for the
query with the unknown tokens removed. -/
theorem claim6_unknown_term_policy (e : Engine) (tokens : List String) :
    ((∃ t ∈ tokens, alGet e.dict t = none) →
      Query.parse tokens false e.dict = [] ∧
      exec_query e tokens RankingAlgorithm.ExactMatch = []) ∧
    (∀ ranking, ranking ≠ RankingAlgorithm.ExactMatch →
      Query.parse tokens true e.dict = tokens.filterMap (alGet e.dict) ∧
      exec_query e tokens ranking =
        exec_query e (tokens.filter (fun t => (alGet e.dict t).isSome)) ranking) := by
  constructor
  · intro ⟨t, ht, hnone⟩
    have hunk : 0 < (tokens.filter (fun t => (alGet e.dict t).isNone)).length := by
      refine List.length_pos.2 ?_
      intro hc
      have : t ∈ tokens.filter (fun t => (alGet e.dict t).isNone) :=
        List.mem_filter.2 ⟨ht, by simp [hnone]⟩
      rw [hc] at this
      exact absurd this (by simp)
    have hparse : Query.parse tokens false e.dict = [] := by
      unfold Query.parse
      rw [get_ids_spec]
      rw [if_pos ⟨rfl, hunk⟩]
    refine ⟨hparse, ?_⟩
    unfold exec_query
    simp only
    rw [hparse]
    rw [score]
    simp
  · intro ranking hne
    have hparse : Query.parse tokens true e.dict = tokens.filterMap (alGet e.dict) := by
      unfold Query.parse
      rw [get_ids_spec]
      simp
    refine ⟨hparse, ?_⟩
    have hflag : (match ranking with
        | RankingAlgorithm.ExactMatch => false
        | _ => true) = true := by
      cases ranking
      · rfl
      · exact absurd rfl hne
      · rfl
      · rfl
      · rfl
    have hparse2 : Query.parse (tokens.filter (fun t => (alGet e.dict t).isSome)) true
        e.dict = tokens.filterMap (alGet e.dict) := by
      unfold Query.parse
      rw [get_ids_spec]
      rw [if_neg (by simp)]
      exact filterMap_filter_isSome (alGet e.dict) tokens
    unfold exec_query
    simp only [hflag, hparse, hparse2]

/-- Witness for C6 on a one-entry dictionary: the unknown token `"bad"`
empties an exact-match query, and a ranked query on
`["sir", "bad"]` equals the query on `["sir"]` alone. -/
theorem claim6_witness :
    Query.parse ["bad"] false [("sir", 4)] = [] ∧
    exec_query (Engine.mk PositionList.new [("sir", 4)] []) ["sir", "bad"]
        RankingAlgorithm.OkapiBM25 =
      exec_query (Engine.mk PositionList.new [("sir", 4)] []) ["sir"]
        RankingAlgorithm.OkapiBM25 := by
  constructor
  · exact ((claim6_unknown_term_policy (Engine.mk PositionList.new [("sir", 4)] [])
      ["bad"]).1 ⟨"bad", by simp, by decide⟩).1
  · have h := ((claim6_unknown_term_policy (Engine.mk PositionList.new [("sir", 4)] [])
      ["sir", "bad"]).2 RankingAlgorithm.OkapiBM25 (by intro hc; cases hc)).2
    have hfilter : (["sir", "bad"].filter
        (fun t => (alGet [("sir", (4 : Nat))] t).isSome)) = ["sir"] := by decide
    rwa [hfilter] at h

/-! ## Claim C4: BM25 computes the spec formula, and the S3 scenario -/

theorem alGet_isSome_iff {α β : Type} [DecidableEq α] (m : List (α × β)) (k : α) :
    (alGet m k).isSome ↔ k ∈ m.map Prod.fst := by
  induction m with
  | nil => simp [alGet]
  | cons kv rest ih =>
      obtain ⟨k', v⟩ := kv
      by_cases hk : k' = k
      · subst hk
        simp [alGet]
      · simp only [alGet, if_neg hk, List.map_cons, List.mem_cons]
        rw [ih]
        exact ⟨Or.inr, fun h => h.elim (fun hc => absurd hc.symm hk) id⟩

theorem alGet_of_mem_nodup {α β : Type} [DecidableEq α] {m : List (α × β)} {k : α} {v : β}
    (hnd : (m.map Prod.fst).Nodup) (hm : (k, v) ∈ m) : alGet m k = some v := by
  induction m with
  | nil => simp at hm
  | cons kv rest ih =>
      obtain ⟨k', v'⟩ := kv
      rcases List.mem_cons.1 hm with heq | hm'
      · obtain ⟨rfl, rfl⟩ : k' = k ∧ v' = v := by
          constructor
          · exact (congrArg Prod.fst heq).symm
          · exact (congrArg Prod.snd heq).symm
        simp [alGet]
      · have hk : k' ≠ k := by
          intro hc
          subst hc
          have : k' ∈ rest.map Prod.fst :=
            List.mem_map.2 ⟨(k', v), hm', rfl⟩
          exact (List.nodup_cons.1 hnd).1 this
        simp only [alGet, if_neg hk]
        exact ih (List.nodup_cons.1 hnd).2 hm'

theorem alModify_keys {α β : Type} [DecidableEq α] (m : List (α × β)) (k : α)
    (d0 : β) (f : β → β) :
    (alModify m k d0 f).map Prod.fst =
      if k ∈ m.map Prod.fst then m.map Prod.fst else m.map Prod.fst ++ [k] := by
  induction m with
  | nil => simp [alModify]
  | cons kv rest ih =>
      obtain ⟨k', v⟩ := kv
      by_cases hk : k' = k
      · subst hk
        simp [alModify]
      · simp only [alModify, if_neg hk, List.map_cons, ih]
        by_cases hmem : k ∈ rest.map Prod.fst
        · rw [if_pos hmem, if_pos (by simp [hmem])]
        · rw [if_neg hmem, if_neg (by
            simp only [List.mem_cons]
            exact fun h => h.elim (fun hc => hk hc.symm) hmem)]
          rfl

theorem alModify_keys_nodup {α β : Type} [DecidableEq α] {m : List (α × β)} (k : α)
    (d0 : β) (f : β → β) (h : (m.map Prod.fst).Nodup) :
    ((alModify m k d0 f).map Prod.fst).Nodup := by
  rw [alModify_keys]
  by_cases hmem : k ∈ m.map Prod.fst
  · rwa [if_pos hmem]
  · rw [if_neg hmem, List.nodup_append]
    exact ⟨h, by simp, by simpa [List.disjoint_singleton] using hmem⟩

theorem queryTermFreq_fold (q : List Nat) :
    ∀ (acc : List (Nat × Nat)) (t : Nat),
      alGet (q.foldl (fun m tid => alModify m tid 0 (fun c => c + 1)) acc) t =
        if t ∈ q then some ((alGet acc t).getD 0 + q.count t) else alGet acc t := by
  induction q with
  | nil => intro acc t; simp
  | cons u q ih =>
      intro acc t
      rw [List.foldl_cons, ih]
      by_cases htu : t = u
      · subst htu
        rw [alGet_alModify_eq]
        by_cases htq : t ∈ q
        · rw [if_pos htq, if_pos (by simp)]
          simp [List.count_cons, Nat.add_assoc, Nat.add_comm 1]
        · rw [if_neg htq, if_pos (by simp)]
          simp [List.count_cons, List.count_eq_zero.2 htq]
      · rw [alGet_alModify_ne _ _ _ htu]
        by_cases htq : t ∈ q
        · rw [if_pos htq, if_pos (by simp [htq])]
          simp [List.count_cons, htu]
        · rw [if_neg htq, if_neg (by simp [htq, htu])]

theorem queryTermFreq_alGet (q : List Nat) (t : Nat) :
    alGet (queryTermFreq q) t = if t ∈ q then some (q.count t) else none := by
  unfold queryTermFreq
  rw [queryTermFreq_fold]
  rcases Decidable.em (t ∈ q) with h | h
  · rw [if_pos h, if_pos h]
    simp [alGet]
  · rw [if_neg h, if_neg h]
    rfl

theorem queryTermFreq_keys_nodup (q : List Nat) :
    ((queryTermFreq q).map Prod.fst).Nodup := by
  unfold queryTermFreq
  suffices h : ∀ acc : List (Nat × Nat), (acc.map Prod.fst).Nodup →
      ((q.foldl (fun m tid => alModify m tid 0 (fun c => c + 1)) acc).map Prod.fst).Nodup by
    exact h [] (by simp)
  induction q with
  | nil => intro acc h; exact h
  | cons u q ih =>
      intro acc h
      rw [List.foldl_cons]
      exact ih _ (alModify_keys_nodup u 0 _ h)

theorem queryTermFreq_mem_pair {q : List Nat} {t c : Nat}
    (h : (t, c) ∈ queryTermFreq q) : t ∈ q ∧ c = q.count t := by
  have hget := alGet_of_mem_nodup (queryTermFreq_keys_nodup q) h
  rw [queryTermFreq_alGet] at hget
  by_cases htq : t ∈ q
  · rw [if_pos htq] at hget
    exact ⟨htq, (Option.some_injective _ hget).symm⟩
  · rw [if_neg htq] at hget
    exact absurd hget (by simp)

theorem queryTermFreq_keys_mem (q : List Nat) (t : Nat) :
    t ∈ (queryTermFreq q).map Prod.fst ↔ t ∈ q := by
  rw [← alGet_isSome_iff, queryTermFreq_alGet]
  by_cases htq : t ∈ q
  · simp [htq]
  · simp [htq]

/-- The per-term BM25 contribution as the source computes it (zero when
the term has no `term_frequency` entry for the document). -/
noncomputable def bm25_code_term (st : PositionList) (docid : Nat) (p : Nat × Nat) : ℝ :=
  match get_term_frequency st p.1 docid with
  | some ftd =>
      (p.2 : ℝ) * (ftd : ℝ) * ((1.2 : ℝ) + 1) /
        ((1.2 : ℝ) * (1 - 0.75 + 0.75 *
          ((get_document_length st docid : ℝ) / average_document_length st)) + (ftd : ℝ)) *
        Real.logb 2 ((st.document_count : ℝ) / ((get_document_frequency st p.1).getD 0 : ℝ))
  | none => 0

theorem bm25_doc_score_eq_sum (st : PositionList) (qtf : List (Nat × Nat)) (docid : Nat) :
    bm25_doc_score st qtf docid = (qtf.map (bm25_code_term st docid)).sum := by
  unfold bm25_doc_score
  suffices h : ∀ (l : List (Nat × Nat)) (a : ℝ),
      l.foldl (fun score p =>
        match get_term_frequency st p.1 docid with
        | some ftd =>
            score + (p.2 : ℝ) * (ftd : ℝ) * ((1.2 : ℝ) + 1) /
              ((1.2 : ℝ) * (1 - 0.75 + 0.75 *
                ((get_document_length st docid : ℝ) / average_document_length st)) +
                (ftd : ℝ)) *
              Real.logb 2 ((st.document_count : ℝ) /
                ((get_document_frequency st p.1).getD 0 : ℝ))
        | none => score) a = a + (l.map (bm25_code_term st docid)).sum by
    rw [h qtf 0, zero_add]
  intro l
  induction l with
  | nil => intro a; simp
  | cons p l ih =>
      intro a
      rw [List.foldl_cons, List.map_cons, List.sum_cons, ih]
      unfold bm25_code_term
      rcases get_term_frequency st p.1 docid with _ | ftd <;> simp only <;> ring

/-- The spec's BM25 formula (§4.6): sum over the unique query terms of
`qf · ftd(k₁+1)/(k₁(1−b+b·ld/lavg)+ftd) · log₂(N/df)`, a term with
`ftd = 0` contributing `0`.  Modelled from the spec's words, to be
compared with `bm25_doc_score`. -/
noncomputable def bm25_spec_score (st : PositionList) (qterms : List Nat) (d : Nat) : ℝ :=
  ∑ t ∈ qterms.toFinset,
    (if ((get_term_frequency st t d).getD 0 : ℝ) = 0 then 0
     else (qterms.count t : ℝ) *
       (((get_term_frequency st t d).getD 0 : ℝ) * ((1.2 : ℝ) + 1) /
         ((1.2 : ℝ) * (1 - 0.75 + 0.75 *
           ((get_document_length st d : ℝ) / average_document_length st)) +
           ((get_term_frequency st t d).getD 0 : ℝ))) *
       Real.logb 2 ((st.document_count : ℝ) / ((get_document_frequency st t).getD 0 : ℝ)))

/-- On any reachable index a stored `term_frequency` entry is at least 1
(it is the length of a non-empty position list). -/
theorem reachable_tf_pos {st : PositionList} (h : Reachable st) {t d n : Nat}
    (htf : get_term_frequency st t d = some n) : 1 ≤ n := by
  obtain ⟨h1, _, h3, _, _, _⟩ := reachable_inv h
  have := h3 t d
  rw [get_term_frequency] at htf
  rw [htf] at this
  rcases hfind : ((alGet st.postings_lists t).getD []).find? (fun p => p.doc_id == d)
    with _ | post
  · rw [hfind] at this
    exact absurd this.symm (by simp)
  · rw [hfind] at this
    obtain rfl : post.term_frequency = n := by simpa using this.symm
    rcases hg : alGet st.postings_lists t with _ | pl0
    · rw [hg] at hfind
      exact absurd hfind (by simp [List.find?])
    · rw [hg] at hfind
      simp only [Option.getD_some] at hfind
      have hmem := List.mem_of_find?_eq_some hfind
      have hok := (h1 t pl0 hg).2.1 post hmem
      rw [hok.2.2.1]
      exact List.length_pos.2 hok.2.1

/-- On any reachable index a term with a `term_frequency` entry for some
document has a positive `document_frequency` entry, and the document
count is positive. -/
theorem reachable_df_of_tf {st : PositionList} (h : Reachable st) {t d : Nat}
    (htf : (get_term_frequency st t d).isSome) :
    ∃ n, get_document_frequency st t = some n ∧ 1 ≤ n ∧ 1 ≤ st.document_count := by
  obtain ⟨h1, h2, h3, _, _, _⟩ := reachable_inv h
  obtain ⟨m, hm⟩ := Option.isSome_iff_exists.1 htf
  rw [get_term_frequency, h3 t d] at hm
  rcases hg : alGet st.postings_lists t with _ | pl
  · rw [hg] at hm
    exact absurd hm (by simp [List.find?])
  · rw [hg] at hm
    simp only [Option.getD_some] at hm
    rcases hfind : pl.find? (fun p => p.doc_id == d) with _ | post
    · rw [hfind] at hm
      exact absurd hm (by simp)
    · have hmem := List.mem_of_find?_eq_some hfind
      have hok := (h1 t pl hg).2.1 post hmem
      refine ⟨pl.countP (fun p => !p.positions.isEmpty), ?_, ?_, ?_⟩
      · rw [get_document_frequency, h2 t, hg]
        rfl
      · rw [Nat.one_le_iff_ne_zero, ← Nat.pos_iff_ne_zero]
        exact List.countP_pos_iff.2 ⟨post, hmem, by
          simp [List.isEmpty_iff, hok.2.1]⟩
      · have := hok.2.2.2
        omega

/-- On any reachable index a `document_frequency` entry is positive, and
so is the document count. -/
theorem reachable_df_pos {st : PositionList} (h : Reachable st) {t n : Nat}
    (hdf : get_document_frequency st t = some n) :
    1 ≤ n ∧ 1 ≤ st.document_count := by
  obtain ⟨h1, h2, _, _, _, _⟩ := reachable_inv h
  rw [get_document_frequency, h2 t] at hdf
  rcases hg : alGet st.postings_lists t with _ | pl
  · rw [hg] at hdf
    exact absurd hdf (by simp)
  · rw [hg] at hdf
    obtain rfl : pl.countP (fun p => !p.positions.isEmpty) = n := by simpa using hdf
    obtain ⟨hne, hall, _⟩ := h1 t pl hg
    rcases pl with _ | ⟨post, pl'⟩
    · exact absurd rfl hne
    · have hok := hall post (List.mem_cons_self post pl')
      constructor
      · rw [Nat.one_le_iff_ne_zero, ← Nat.pos_iff_ne_zero]
        exact List.countP_pos_iff.2 ⟨post, List.mem_cons_self post pl', by
          simp [List.isEmpty_iff, hok.2.1]⟩
      · have := hok.2.2.2
        omega

/-- On any reachable index the code's per-document BM25 loop computes
exactly the spec formula. -/
theorem bm25_code_eq_spec (st : PositionList) (h : Reachable st) (qterms : List Nat)
    (d : Nat) :
    bm25_doc_score st (queryTermFreq qterms) d = bm25_spec_score st qterms d := by
  have htf_pos : ∀ t ftd, get_term_frequency st t d = some ftd → 1 ≤ ftd :=
    fun t ftd htf => reachable_tf_pos h htf
  rw [bm25_doc_score_eq_sum]
  have hpoint : ∀ p ∈ queryTermFreq qterms, bm25_code_term st d p =
      (fun t => if ((get_term_frequency st t d).getD 0 : ℝ) = 0 then 0
        else (qterms.count t : ℝ) *
          (((get_term_frequency st t d).getD 0 : ℝ) * ((1.2 : ℝ) + 1) /
            ((1.2 : ℝ) * (1 - 0.75 + 0.75 *
              ((get_document_length st d : ℝ) / average_document_length st)) +
              ((get_term_frequency st t d).getD 0 : ℝ))) *
          Real.logb 2 ((st.document_count : ℝ) /
            ((get_document_frequency st t).getD 0 : ℝ))) p.1 := by
    intro p hp
    obtain ⟨t, c⟩ := p
    obtain ⟨htq, rfl⟩ := queryTermFreq_mem_pair hp
    unfold bm25_code_term
    rcases htf : get_term_frequency st t d with _ | ftd <;> simp only
    · rw [if_pos (by simp [htf])]
    · have hpos := htf_pos t ftd htf
      rw [if_neg (by
        rw [htf]
        simp only [Option.getD_some]
        exact_mod_cast Nat.one_le_iff_ne_zero.1 hpos)]
      rw [htf]
      simp only [Option.getD_some]
      ring
  unfold bm25_spec_score
  rw [show qterms.toFinset = ((queryTermFreq qterms).map Prod.fst).toFinset from by
    ext x
    simp only [List.mem_toFinset]
    exact (queryTermFreq_keys_mem qterms x).symm]
  rw [List.sum_toFinset _ (queryTermFreq_keys_nodup qterms)]
  rw [List.map_map]
  exact congrArg List.sum (List.map_congr_left hpoint)

/-- The five-document S3 corpus (`a_quarrel.txt` fixtures): document
term-id lists `[1,2,3,4]`, `[3,4,5,4]`, `[6,2,1,4,7,8,9,2,7,10,11,12,13,14,11,2]`,
`[5,15]`, `[16,4]`; the query "quarrel sir" is `[3,4]`. -/
def idxS3 : PositionList :=
  (add_document (add_document (add_document (add_document (add_document
    PositionList.new
    [1, 2, 3, 4]).1 [3, 4, 5, 4]).1
    [6, 2, 1, 4, 7, 8, 9, 2, 7, 10, 11, 12, 13, 14, 11, 2]).1 [5, 15]).1 [16, 4]).1

theorem reachable_idxS3 : Reachable idxS3 :=
  Reachable.add _ _ (Reachable.add _ _ (Reachable.add _ _ (Reachable.add _ _
    (Reachable.add _ _ Reachable.new))))

/-- `9510/4096 < log₂ 5 < 9511/4096`, from `2^9510 < 5^4096 < 2^9511`. -/
theorem logb_five_bounds :
    (9510 : ℝ) / 4096 < Real.logb 2 5 ∧ Real.logb 2 5 < (9511 : ℝ) / 4096 := by
  have h2 : (1 : ℝ) < 2 := one_lt_two
  have h5 : (0 : ℝ) < 5 := by norm_num
  constructor
  · rw [Real.lt_logb_iff_rpow_lt h2 h5]
    by_contra hle
    push_neg at hle
    have hp : (5 : ℝ) ^ (4096 : ℕ) ≤ ((2 : ℝ) ^ ((9510 : ℝ) / 4096)) ^ (4096 : ℕ) :=
      pow_le_pow_left₀ h5.le hle 4096
    have hmul : (9510 : ℝ) / 4096 * ((4096 : ℕ) : ℝ) = ((9510 : ℕ) : ℝ) := by
      push_cast
      norm_num
    rw [← Real.rpow_natCast ((2 : ℝ) ^ ((9510 : ℝ) / 4096)) 4096,
      ← Real.rpow_mul (by norm_num : (0 : ℝ) ≤ 2), hmul, Real.rpow_natCast] at hp
    have hnat : (2 : ℕ) ^ 9510 < 5 ^ 4096 := by norm_num
    have hcast : ((2 : ℕ) ^ 9510 : ℝ) < ((5 : ℕ) ^ 4096 : ℝ) := by exact_mod_cast hnat
    push_cast at hcast
    linarith
  · rw [Real.logb_lt_iff_lt_rpow h2 h5]
    by_contra hle
    push_neg at hle
    have hp : ((2 : ℝ) ^ ((9511 : ℝ) / 4096)) ^ (4096 : ℕ) ≤ (5 : ℝ) ^ (4096 : ℕ) :=
      pow_le_pow_left₀ (Real.rpow_nonneg (by norm_num) _) hle 4096
    have hmul : (9511 : ℝ) / 4096 * ((4096 : ℕ) : ℝ) = ((9511 : ℕ) : ℝ) := by
      push_cast
      norm_num
    rw [← Real.rpow_natCast ((2 : ℝ) ^ ((9511 : ℝ) / 4096)) 4096,
      ← Real.rpow_mul (by norm_num : (0 : ℝ) ≤ 2), hmul, Real.rpow_natCast] at hp
    have hnat : (5 : ℕ) ^ 4096 < 2 ^ 9511 := by norm_num
    have hcast : ((5 : ℕ) ^ 4096 : ℝ) < ((2 : ℕ) ^ 9511 : ℝ) := by exact_mod_cast hnat
    push_cast at hcast
    linarith

theorem logb_five_div_two : Real.logb 2 ((5 : ℝ) / 2) = Real.logb 2 5 - 1 := by
  rw [Real.logb_div (by norm_num) (by norm_num), Real.logb_self_eq_one one_lt_two]

theorem logb_five_div_four : Real.logb 2 ((5 : ℝ) / 4) = Real.logb 2 5 - 2 := by
  rw [Real.logb_div (by norm_num) (by norm_num)]
  rw [show (4 : ℝ) = 2 * 2 by norm_num,
    Real.logb_mul (by norm_num) (by norm_num), Real.logb_self_eq_one one_lt_two]
  ring

theorem bm25_s3_d1 : |bm25_doc_score idxS3 [(3, 1), (4, 1)] 1 - 1.86| ≤ 0.005 := by
  have e3 : get_term_frequency idxS3 3 1 = some 1 := rfl
  have e4 : get_term_frequency idxS3 4 1 = some 1 := rfl
  have f3 : get_document_frequency idxS3 3 = some 2 := rfl
  have f4 : get_document_frequency idxS3 4 = some 4 := rfl
  have g1 : get_document_length idxS3 1 = 4 := rfl
  have hc : idxS3.document_count = 5 := rfl
  have ht : idxS3.total_document_length = 28 := rfl
  have hL := logb_five_bounds
  rw [bm25_doc_score_eq_sum]
  simp only [List.map_cons, List.map_nil, List.sum_cons, List.sum_nil, bm25_code_term,
    average_document_length, e3, e4, f3, f4, g1, hc, ht, Option.getD_some,
    Nat.cast_ofNat, Nat.cast_one]
  rw [logb_five_div_two, logb_five_div_four]
  rw [abs_le]
  constructor <;> nlinarith [hL.1, hL.2]

theorem bm25_s3_d2 : |bm25_doc_score idxS3 [(3, 1), (4, 1)] 2 - 1.98| ≤ 0.005 := by
  have e3 : get_term_frequency idxS3 3 2 = some 1 := rfl
  have e4 : get_term_frequency idxS3 4 2 = some 2 := rfl
  have f3 : get_document_frequency idxS3 3 = some 2 := rfl
  have f4 : get_document_frequency idxS3 4 = some 4 := rfl
  have g2 : get_document_length idxS3 2 = 4 := rfl
  have hc : idxS3.document_count = 5 := rfl
  have ht : idxS3.total_document_length = 28 := rfl
  have hL := logb_five_bounds
  rw [bm25_doc_score_eq_sum]
  simp only [List.map_cons, List.map_nil, List.sum_cons, List.sum_nil, bm25_code_term,
    average_document_length, e3, e4, f3, f4, g2, hc, ht, Option.getD_some,
    Nat.cast_ofNat, Nat.cast_one]
  rw [logb_five_div_two, logb_five_div_four]
  rw [abs_le]
  constructor <;> nlinarith [hL.1, hL.2]

theorem bm25_s3_d3 : |bm25_doc_score idxS3 [(3, 1), (4, 1)] 3 - 0.18| ≤ 0.005 := by
  have e3 : get_term_frequency idxS3 3 3 = none := rfl
  have e4 : get_term_frequency idxS3 4 3 = some 1 := rfl
  have f4 : get_document_frequency idxS3 4 = some 4 := rfl
  have g3 : get_document_length idxS3 3 = 16 := rfl
  have hc : idxS3.document_count = 5 := rfl
  have ht : idxS3.total_document_length = 28 := rfl
  have hL := logb_five_bounds
  rw [bm25_doc_score_eq_sum]
  simp only [List.map_cons, List.map_nil, List.sum_cons, List.sum_nil, bm25_code_term,
    average_document_length, e3, e4, f4, g3, hc, ht, Option.getD_some,
    Nat.cast_ofNat, Nat.cast_one]
  rw [logb_five_div_four]
  rw [abs_le]
  constructor <;> nlinarith [hL.1, hL.2]

theorem bm25_s3_d5 : |bm25_doc_score idxS3 [(3, 1), (4, 1)] 5 - 0.44| ≤ 0.005 := by
  have e3 : get_term_frequency idxS3 3 5 = none := rfl
  have e4 : get_term_frequency idxS3 4 5 = some 1 := rfl
  have f4 : get_document_frequency idxS3 4 = some 4 := rfl
  have g5 : get_document_length idxS3 5 = 2 := rfl
  have hc : idxS3.document_count = 5 := rfl
  have ht : idxS3.total_document_length = 28 := rfl
  have hL := logb_five_bounds
  rw [bm25_doc_score_eq_sum]
  simp only [List.map_cons, List.map_nil, List.sum_cons, List.sum_nil, bm25_code_term,
    average_document_length, e3, e4, f4, g5, hc, ht, Option.getD_some,
    Nat.cast_ofNat, Nat.cast_one]
  rw [logb_five_div_four]
  rw [abs_le]
  constructor <;> nlinarith [hL.1, hL.2]

/-- Abbreviation for the BM25 score of S3 document `d` under the query
term-frequency map of `[3, 4]`. -/
noncomputable def s3score (d : Nat) : ℝ :=
  bm25_doc_score idxS3 [(3, 1), (4, 1)] d

noncomputable def s3doc (d : Nat) : DocScore :=
  ⟨d, s3score d⟩

theorem rank_bm25_S3_eval :
    rank_bm25 idxS3 [3, 4] = [s3doc 2, s3doc 1, s3doc 5, s3doc 3] := by
  have b1 : |s3score 1 - 1.86| ≤ 0.005 := bm25_s3_d1
  have b2 : |s3score 2 - 1.98| ≤ 0.005 := bm25_s3_d2
  have b3 : |s3score 3 - 0.18| ≤ 0.005 := bm25_s3_d3
  have b5 : |s3score 5 - 0.44| ≤ 0.005 := bm25_s3_d5
  rw [abs_le] at b1 b2 b3 b5
  have hsc : ∀ d, (s3doc d).score = s3score d := fun d => rfl
  have h35 : ¬ scoreGe (s3doc 3) (s3doc 5) := by
    simp only [scoreGe, hsc]
    exact not_le.2 (by linarith)
  have h25 : scoreGe (s3doc 2) (s3doc 5) := by
    simp only [scoreGe, hsc]
    linarith
  have h12 : ¬ scoreGe (s3doc 1) (s3doc 2) := by
    simp only [scoreGe, hsc]
    exact not_le.2 (by linarith)
  have h15 : scoreGe (s3doc 1) (s3doc 5) := by
    simp only [scoreGe, hsc]
    linarith
  have hmap : ([1, 2, 3, 5] : List Nat).map
      (fun docid => DocScore.mk docid (bm25_doc_score idxS3 (queryTermFreq [3, 4]) docid)) =
      [s3doc 1, s3doc 2, s3doc 3, s3doc 5] := rfl
  have o5 : List.orderedInsert scoreGe (s3doc 5) [] = [s3doc 5] := rfl
  have o3 : List.orderedInsert scoreGe (s3doc 3) [s3doc 5] = [s3doc 5, s3doc 3] := by
    simp only [List.orderedInsert]
    rw [if_neg h35]
  have o2 : List.orderedInsert scoreGe (s3doc 2) [s3doc 5, s3doc 3] =
      [s3doc 2, s3doc 5, s3doc 3] := by
    simp only [List.orderedInsert]
    rw [if_pos h25]
  have o1 : List.orderedInsert scoreGe (s3doc 1) [s3doc 2, s3doc 5, s3doc 3] =
      [s3doc 2, s3doc 1, s3doc 5, s3doc 3] := by
    simp only [List.orderedInsert]
    rw [if_neg h12, if_pos h15]
  simp only [rank_bm25]
  rw [if_neg (by norm_num : ¬ ([3, 4] : List Nat).length = 0)]
  rw [show docs_contain_any idxS3 [3, 4] = [1, 2, 3, 5] from rfl]
  rw [hmap]
  unfold sortByScoreDesc
  simp only [List.insertionSort]
  rw [o5, o3, o2, o1]

/-- C4.  On every reachable index the per-document score computed by the
`rank_bm25` loop equals the spec's BM25 sum over the unique query terms
(`k₁ = 1.2`, `b = 0.75`, a term with `ftd = 0` contributing `0`), so
`rank_bm25` returns exactly the contains-any documents each paired with
that score (up to the descending sort's permutation); on the S3 corpus
the query `[3, 4]` ("quarrel sir") returns doc ids `[2, 1, 5, 3]` with
scores within `0.005` of `[1.98, 1.86, 0.44, 0.18]`. -/
theorem claim4_bm25 :
    (∀ st, Reachable st → ∀ term_ids d,
      bm25_doc_score st (queryTermFreq term_ids) d = bm25_spec_score st term_ids d) ∧
    (∀ st, Reachable st → ∀ term_ids, term_ids ≠ [] →
      (rank_bm25 st term_ids).Perm
        ((docs_contain_any st term_ids).map
          (fun d => DocScore.mk d (bm25_spec_score st term_ids d)))) ∧
    (rank_bm25 idxS3 [3, 4]).map DocScore.docid = [2, 1, 5, 3] ∧
    (∀ pr ∈ ((rank_bm25 idxS3 [3, 4]).map DocScore.score).zip
        [(1.98 : ℝ), 1.86, 0.44, 0.18], |pr.1 - pr.2| ≤ 0.005) := by
  refine ⟨fun st h term_ids d => bm25_code_eq_spec st h term_ids d, ?_, ?_, ?_⟩
  · intro st hst term_ids hne
    simp only [rank_bm25]
    rw [if_neg (by simpa [List.length_eq_zero] using hne)]
    have hmaps : (docs_contain_any st term_ids).map
        (fun docid => DocScore.mk docid (bm25_doc_score st (queryTermFreq term_ids) docid)) =
        (docs_contain_any st term_ids).map
        (fun d => DocScore.mk d (bm25_spec_score st term_ids d)) :=
      List.map_congr_left (fun d _ => by rw [bm25_code_eq_spec st hst])
    exact hmaps ▸ List.perm_insertionSort scoreGe _
  · rw [rank_bm25_S3_eval]
    rfl
  · intro pr hpr
    rw [rank_bm25_S3_eval] at hpr
    simp only [List.map_cons, List.map_nil, List.zip_cons_cons, List.zip_nil_right,
      List.mem_cons, List.not_mem_nil, or_false] at hpr
    rcases hpr with rfl | rfl | rfl | rfl
    · exact bm25_s3_d2
    · exact bm25_s3_d1
    · exact bm25_s3_d5
    · exact bm25_s3_d3

/-- Witness for C4: the code/spec score equality instantiated on the
concrete reachable S3 index, query `[3, 4]`, document `2`. -/
theorem claim4_witness :
    bm25_doc_score idxS3 (queryTermFreq [3, 4]) 2 = bm25_spec_score idxS3 [3, 4] 2 :=
  claim4_bm25.1 idxS3 reachable_idxS3 [3, 4] 2

/-! ## Claim C7: NaN analysis of the VSM pipeline

The `f32` dataflow of `rank_vsm` is re-modelled with values in
`Option ℝ`, where `none` marks a non-finite `f32` (NaN or `±∞`):
`0.0/0.0` is NaN, division by zero otherwise gives `±∞`, `log2` of a
non-positive number gives `-∞`/NaN, and every arithmetic operation
propagates non-finite inputs.  (The final `sort_by` of `rank_vsm` only
permutes the scores — and its `partial_cmp().unwrap()` panics outright
on NaN — so it is omitted here.) -/

noncomputable def fadd : Option ℝ → Option ℝ → Option ℝ
  | some a, some b => some (a + b)
  | _, _ => none

noncomputable def fmul : Option ℝ → Option ℝ → Option ℝ
  | some a, some b => some (a * b)
  | _, _ => none

noncomputable def fdiv : Option ℝ → Option ℝ → Option ℝ
  | some a, some b => if b = 0 then none else some (a / b)
  | _, _ => none

noncomputable def flog2 (x : Option ℝ) : Option ℝ :=
  x.bind (fun a => if 0 < a then some (Real.logb 2 a) else none)

noncomputable def fsqrt (x : Option ℝ) : Option ℝ :=
  x.bind (fun a => if 0 ≤ a then some (Real.sqrt a) else none)

/-- A sparse `f32` vector under the NaN-tracking semantics. -/
abbrev FSparseVector : Type := List (Nat × Option ℝ)

/-- `vec_set` on the NaN-tracking vectors. -/
def vec_set_f (v : FSparseVector) (id : Nat) (value : Option ℝ) :
    FSparseVector × (Nat × Option ℝ) :=
  (match alGet v id with
   | some _ => v
   | none => v ++ [(id, value)],
   (id, value))

/-- `vec_len` on the NaN-tracking vectors. -/
noncomputable def vec_len_f (v : FSparseVector) : Option ℝ :=
  fsqrt (v.foldl (fun length p => fadd length (fmul p.2 p.2)) (some 0))

/-- `vec_normalize` on the NaN-tracking vectors: `value / length` for
every entry — when the length is `0` and the value is `0` this `f32`
division is `0.0/0.0 = NaN`. -/
noncomputable def vec_normalize_f (v : FSparseVector) : FSparseVector :=
  v.map (fun p => (p.1, fdiv p.2 (vec_len_f v)))

/-- `vec_dot` on the NaN-tracking vectors. -/
noncomputable def vec_dot_f (a b : FSparseVector) : Option ℝ :=
  let sv := if a.length ≤ b.length then (a, b) else (b, a)
  sv.1.foldl
    (fun result p =>
      match alGet sv.2 p.1 with
      | some sv2_value => fadd result (fmul p.2 sv2_value)
      | none => result)
    (some 0)

/-- The TF-IDF weight `(freq.log2() + 1) * (N / df).log2()` computed by
both `get_doc_tfidf_vector` and `get_phrase_tfidf_vector` (the
`document_frequency` `unwrap` is modelled by `getD 0`, which the
`fdiv`/`flog2` chain then flags as non-finite). -/
noncomputable def tfidf_weight_f (st : PositionList) (freq : Nat) (term : Nat) : Option ℝ :=
  fmul (fadd (flog2 (some (freq : ℝ))) (some 1))
    (flog2 (fdiv (some (st.document_count : ℝ))
      (some ((alGet st.document_frequency term).getD 0 : ℝ))))

/-- `SchemaDependIndex::get_doc_tfidf_vector` under the NaN-tracking
semantics. -/
noncomputable def get_doc_tfidf_vector_f (st : PositionList) (doc : Nat) : FSparseVector :=
  let term_set := (alGet st.doc_terms doc).getD []
  let tfidf_vec := term_set.foldl
    (fun v term =>
      (vec_set_f v term
        (tfidf_weight_f st ((get_term_frequency st term doc).getD 0) term)).1)
    []
  vec_normalize_f tfidf_vec

/-- `SchemaDependIndex::get_phrase_tfidf_vector` under the NaN-tracking
semantics. -/
noncomputable def get_phrase_tfidf_vector_f (st : PositionList) (terms : List Nat) :
    FSparseVector :=
  let query_term_freq := queryTermFreq terms
  let query_tfidf := query_term_freq.foldl
    (fun v p => (vec_set_f v p.1 (tfidf_weight_f st p.2 p.1)).1)
    []
  vec_normalize_f query_tfidf

theorem mem_of_alGet {α β : Type} [DecidableEq α] {m : List (α × β)} {k : α} {v : β}
    (h : alGet m k = some v) : (k, v) ∈ m := by
  induction m with
  | nil => simp [alGet] at h
  | cons kv rest ih =>
      obtain ⟨k', v'⟩ := kv
      by_cases hk : k' = k
      · subst hk
        rw [alGet, if_pos rfl] at h
        obtain rfl : v' = v := Option.some.inj h
        exact List.mem_cons_self _ _
      · simp only [alGet, if_neg hk] at h
        exact List.mem_cons_of_mem _ (ih h)

theorem alGet_append {α β : Type} [DecidableEq α] (xs ys : List (α × β)) (k : α) :
    alGet (xs ++ ys) k = (alGet xs k).or (alGet ys k) := by
  induction xs with
  | nil => simp [alGet]
  | cons kv rest ih =>
      obtain ⟨k', v'⟩ := kv
      by_cases hk : k' = k
      · subst hk
        simp [alGet]
      · simp only [List.cons_append, alGet, if_neg hk]
        exact ih

/-- Every entry of the vector holds a finite value. -/
def AllSome (v : FSparseVector) : Prop := ∀ p ∈ v, (p.2).isSome

theorem vec_set_f_mem {v : FSparseVector} {id : Nat} {x : Option ℝ} {p : Nat × Option ℝ}
    (h : p ∈ v) : p ∈ (vec_set_f v id x).1 := by
  simp only [vec_set_f]
  rcases alGet v id with _ | w
  · simp only
    exact List.mem_append_left _ h
  · exact h

theorem vec_set_f_all_some {v : FSparseVector} {id : Nat} {x : Option ℝ}
    (hv : AllSome v) (hx : x.isSome) : AllSome (vec_set_f v id x).1 := by
  simp only [vec_set_f]
  rcases alGet v id with _ | w
  · intro p hp
    rcases List.mem_append.1 hp with h | h
    · exact hv p h
    · simp only [List.mem_singleton] at h
      subst h
      exact hx
  · exact hv

theorem vec_set_fold_all_some {α : Type} (key : α → Nat) (wt : α → Option ℝ) :
    ∀ (L : List α) (v0 : FSparseVector), AllSome v0 → (∀ a ∈ L, (wt a).isSome) →
      AllSome (L.foldl (fun v a => (vec_set_f v (key a) (wt a)).1) v0) := by
  intro L
  induction L with
  | nil =>
      intro v0 h _
      exact h
  | cons a L ih =>
      intro v0 h hs
      rw [List.foldl_cons]
      exact ih _ (vec_set_f_all_some h (hs a (List.mem_cons_self a L)))
        (fun b hb => hs b (List.mem_cons_of_mem a hb))

theorem vec_set_fold_mem_preserve {α : Type} (key : α → Nat) (wt : α → Option ℝ)
    {p : Nat × Option ℝ} :
    ∀ (L : List α) (v0 : FSparseVector), p ∈ v0 →
      p ∈ L.foldl (fun v a => (vec_set_f v (key a) (wt a)).1) v0 := by
  intro L
  induction L with
  | nil =>
      intro v0 h
      exact h
  | cons a L ih =>
      intro v0 h
      rw [List.foldl_cons]
      exact ih _ (vec_set_f_mem h)

theorem vec_set_fold_mem {α : Type} (key : α → Nat) (wt : α → Option ℝ) (a0 : α) :
    ∀ (L : List α) (v0 : FSparseVector), a0 ∈ L →
      (∀ a ∈ L, key a = key a0 → wt a = wt a0) →
      alGet v0 (key a0) = none →
      (key a0, wt a0) ∈ L.foldl (fun v a => (vec_set_f v (key a) (wt a)).1) v0 := by
  intro L
  induction L with
  | nil =>
      intro v0 h
      exact absurd h (List.not_mem_nil a0)
  | cons a L ih =>
      intro v0 ha0 hsame hnone
      rw [List.foldl_cons]
      by_cases hk : key a = key a0
      · have hwa : wt a = wt a0 := hsame a (List.mem_cons_self a L) hk
        have hset : (key a0, wt a0) ∈ (vec_set_f v0 (key a) (wt a)).1 := by
          simp only [vec_set_f]
          rw [hk, hnone]
          simp only
          rw [hwa]
          exact List.mem_append_right _ (List.mem_singleton_self _)
        exact vec_set_fold_mem_preserve key wt L _ hset
      · have ha0L : a0 ∈ L := by
          rcases List.mem_cons.1 ha0 with rfl | hmem
          · exact absurd rfl hk
          · exact hmem
        have hnone' : alGet (vec_set_f v0 (key a) (wt a)).1 (key a0) = none := by
          simp only [vec_set_f]
          rcases alGet v0 (key a) with _ | w
          · simp only
            rw [alGet_append, hnone]
            simp [alGet, hk]
          · exact hnone
        exact ih _ ha0L (fun b hb => hsame b (List.mem_cons_of_mem a hb)) hnone'

theorem len_fold_eq :
    ∀ (v : FSparseVector), AllSome v → ∀ a : ℝ,
      v.foldl (fun length p => fadd length (fmul p.2 p.2)) (some a) =
        some (a + (v.map (fun p => ((p.2).getD 0) ^ 2)).sum) := by
  intro v
  induction v with
  | nil =>
      intro _ a
      simp
  | cons p v ih =>
      intro hv a
      obtain ⟨w, hw⟩ := Option.isSome_iff_exists.1 (hv p (List.mem_cons_self p v))
      rw [List.foldl_cons, hw]
      rw [show fadd (some a) (fmul (some w) (some w)) = some (a + w * w) from rfl]
      rw [ih (fun q hq => hv q (List.mem_cons_of_mem p hq)) (a + w * w)]
      simp only [List.map_cons, List.sum_cons, hw, Option.getD_some, Option.some.injEq]
      ring

theorem vec_len_f_eq {v : FSparseVector} (hv : AllSome v) :
    vec_len_f v = some (Real.sqrt ((v.map (fun p => ((p.2).getD 0) ^ 2)).sum)) := by
  unfold vec_len_f
  rw [len_fold_eq v hv 0, zero_add]
  have hS : (0 : ℝ) ≤ (v.map (fun p => ((p.2).getD 0) ^ 2)).sum :=
    List.sum_nonneg (by
      intro x hx
      obtain ⟨q, _, rfl⟩ := List.mem_map.1 hx
      positivity)
  simp only [fsqrt, Option.some_bind]
  rw [if_pos hS]

theorem vec_normalize_f_all_some {v : FSparseVector} (hv : AllSome v)
    (hnz : ∃ p ∈ v, ∃ w, p.2 = some w ∧ w ≠ 0) :
    AllSome (vec_normalize_f v) := by
  obtain ⟨p0, hp0, w0, hw0, hw0nz⟩ := hnz
  have hS : (0 : ℝ) < (v.map (fun p => ((p.2).getD 0) ^ 2)).sum := by
    have hmem : ((p0.2).getD 0) ^ 2 ∈ v.map (fun p => ((p.2).getD 0) ^ 2) :=
      List.mem_map_of_mem _ hp0
    have hpos : (0 : ℝ) < ((p0.2).getD 0) ^ 2 := by
      rw [hw0, Option.getD_some]
      exact pow_two_pos_of_ne_zero hw0nz
    have hle := List.single_le_sum
      (by
        intro x hx
        obtain ⟨q, _, rfl⟩ := List.mem_map.1 hx
        positivity) _ hmem
    linarith
  have hsqrt : Real.sqrt ((v.map (fun p => ((p.2).getD 0) ^ 2)).sum) ≠ 0 :=
    ne_of_gt (Real.sqrt_pos.2 hS)
  intro q hq
  simp only [vec_normalize_f, List.mem_map] at hq
  obtain ⟨r, hr, rfl⟩ := hq
  obtain ⟨w, hwr⟩ := Option.isSome_iff_exists.1 (hv r hr)
  rw [vec_len_f_eq hv]
  simp [fdiv, hwr, hsqrt]

theorem vec_dot_f_some {a b : FSparseVector} (ha : AllSome a) (hb : AllSome b) :
    (vec_dot_f a b).isSome := by
  have key : ∀ (sv1 : FSparseVector), AllSome sv1 → ∀ (sv2 : FSparseVector), AllSome sv2 →
      ∀ (acc : Option ℝ), acc.isSome →
      (sv1.foldl (fun result p =>
        match alGet sv2 p.1 with
        | some sv2_value => fadd result (fmul p.2 sv2_value)
        | none => result) acc).isSome := by
    intro sv1
    induction sv1 with
    | nil =>
        intro _ _ _ acc h
        exact h
    | cons p L ih =>
        intro h1 sv2 h2 acc hacc
        rw [List.foldl_cons]
        rcases hg : alGet sv2 p.1 with _ | y
        · exact ih (fun q hq => h1 q (List.mem_cons_of_mem _ hq)) sv2 h2 _ hacc
        · simp only
          obtain ⟨wy, rfl⟩ := Option.isSome_iff_exists.1 (h2 (p.1, y) (mem_of_alGet hg))
          obtain ⟨wp, hwp⟩ := Option.isSome_iff_exists.1 (h1 p (List.mem_cons_self p L))
          obtain ⟨wa, rfl⟩ := Option.isSome_iff_exists.1 hacc
          refine ih (fun q hq => h1 q (List.mem_cons_of_mem _ hq)) sv2 h2 _ ?_
          rw [hwp]
          simp [fadd, fmul]
  unfold vec_dot_f
  by_cases hl : a.length ≤ b.length
  · simp only [if_pos hl]
    exact key a ha b hb (some 0) rfl
  · simp only [if_neg hl]
    exact key b hb a ha (some 0) rfl

theorem tfidf_weight_f_some {st : PositionList} {freq t n : Nat}
    (hfreq : 1 ≤ freq) (hdf : get_document_frequency st t = some n)
    (hn : 1 ≤ n) (hN : 1 ≤ st.document_count) :
    tfidf_weight_f st freq t =
      some ((Real.logb 2 (freq : ℝ) + 1) *
        Real.logb 2 ((st.document_count : ℝ) / (n : ℝ))) := by
  unfold tfidf_weight_f
  rw [show alGet st.document_frequency t = some n from hdf]
  simp only [Option.getD_some]
  have h1 : (0 : ℝ) < (freq : ℝ) := by exact_mod_cast hfreq
  have h2 : ((n : ℕ) : ℝ) ≠ 0 := by
    have hpos : (0 : ℝ) < (n : ℝ) := by exact_mod_cast hn
    exact ne_of_gt hpos
  have h3 : (0 : ℝ) < (st.document_count : ℝ) / (n : ℝ) :=
    div_pos (by exact_mod_cast hN) (by exact_mod_cast hn)
  have e1 : flog2 (some ((freq : ℕ) : ℝ)) = some (Real.logb 2 (freq : ℝ)) := by
    simp only [flog2, Option.some_bind]
    rw [if_pos h1]
  have e2 : fdiv (some ((st.document_count : ℕ) : ℝ)) (some ((n : ℕ) : ℝ)) =
      some ((st.document_count : ℝ) / (n : ℝ)) := by
    simp only [fdiv]
    rw [if_neg h2]
  have e3 : flog2 (some ((st.document_count : ℝ) / (n : ℝ))) =
      some (Real.logb 2 ((st.document_count : ℝ) / (n : ℝ))) := by
    simp only [flog2, Option.some_bind]
    rw [if_pos h3]
  rw [e1, e2, e3]
  rfl

theorem tfidf_weight_pos {st : PositionList} {freq n : Nat}
    (hfreq : 1 ≤ freq) (hn : 1 ≤ n) (hlt : n < st.document_count) :
    0 < (Real.logb 2 (freq : ℝ) + 1) *
      Real.logb 2 ((st.document_count : ℝ) / (n : ℝ)) := by
  have h0 : (0 : ℝ) ≤ Real.logb 2 (freq : ℝ) :=
    Real.logb_nonneg one_lt_two (by exact_mod_cast hfreq)
  have hx : (1 : ℝ) < (st.document_count : ℝ) / (n : ℝ) := by
    rw [lt_div_iff₀ (by exact_mod_cast hn : (0 : ℝ) < (n : ℝ)), one_mul]
    exact_mod_cast hlt
  exact mul_pos (by linarith) (Real.logb_pos one_lt_two hx)

theorem count_pos_of_mem {t : Nat} {l : List Nat} (h : t ∈ l) : 1 ≤ l.count t := by
  have : l.count t ≠ 0 := fun h0 => (List.count_eq_zero.1 h0) h
  omega

/-- On a reachable index, a query whose terms are all indexed and at
least one of which misses some document yields an all-finite normalised
query TF-IDF vector. -/
theorem query_vec_ok {st : PositionList} (h : Reachable st) {term_ids : List Nat}
    (hq1 : ∀ t ∈ term_ids, (get_document_frequency st t).isSome)
    (hq2 : ∃ t ∈ term_ids, ∃ n, get_document_frequency st t = some n ∧
      n < st.document_count) :
    AllSome (get_phrase_tfidf_vector_f st term_ids) := by
  have hw : ∀ p ∈ queryTermFreq term_ids, (tfidf_weight_f st p.2 p.1).isSome := by
    intro p hp
    obtain ⟨t, c⟩ := p
    obtain ⟨ht, hc⟩ := queryTermFreq_mem_pair hp
    obtain ⟨n, hdf⟩ := Option.isSome_iff_exists.1 (hq1 t ht)
    obtain ⟨hn, hN⟩ := reachable_df_pos h hdf
    have hfreq : 1 ≤ c := by
      rw [hc]
      exact count_pos_of_mem ht
    rw [tfidf_weight_f_some hfreq hdf hn hN]
    rfl
  show AllSome (vec_normalize_f ((queryTermFreq term_ids).foldl
    (fun v p => (vec_set_f v p.1 (tfidf_weight_f st p.2 p.1)).1) []))
  apply vec_normalize_f_all_some
  · exact vec_set_fold_all_some (fun p => p.1) (fun p => tfidf_weight_f st p.2 p.1)
      (queryTermFreq term_ids) [] (fun p hp => absurd hp (List.not_mem_nil p)) hw
  · obtain ⟨t0, ht0, n0, hdf0, hlt0⟩ := hq2
    have hkey : alGet (queryTermFreq term_ids) t0 = some (term_ids.count t0) := by
      rw [queryTermFreq_alGet, if_pos ht0]
    have hmem : (t0, term_ids.count t0) ∈ queryTermFreq term_ids := mem_of_alGet hkey
    obtain ⟨hn0, hN⟩ := reachable_df_pos h hdf0
    have hc0 : 1 ≤ term_ids.count t0 := count_pos_of_mem ht0
    have hsame : ∀ a ∈ queryTermFreq term_ids,
        (fun (p : Nat × Nat) => p.1) a = (fun (p : Nat × Nat) => p.1) (t0, term_ids.count t0) →
        (fun (p : Nat × Nat) => tfidf_weight_f st p.2 p.1) a =
          (fun (p : Nat × Nat) => tfidf_weight_f st p.2 p.1) (t0, term_ids.count t0) := by
      intro a ha hk
      obtain ⟨ta, ca⟩ := a
      simp only at hk
      subst hk
      have hca : ca = term_ids.count ta := by
        have := alGet_of_mem_nodup (queryTermFreq_keys_nodup term_ids) ha
        rw [hkey] at this
        exact (Option.some.inj this).symm
      simp only [hca]
    have hin := vec_set_fold_mem (fun (p : Nat × Nat) => p.1)
      (fun (p : Nat × Nat) => tfidf_weight_f st p.2 p.1) (t0, term_ids.count t0)
      (queryTermFreq term_ids) [] hmem hsame rfl
    refine ⟨_, hin, (Real.logb 2 ((term_ids.count t0 : ℕ) : ℝ) + 1) *
      Real.logb 2 ((st.document_count : ℝ) / ((n0 : ℕ) : ℝ)), ?_, ?_⟩
    · exact tfidf_weight_f_some hc0 hdf0 hn0 hN
    · exact ne_of_gt (tfidf_weight_pos hc0 hn0 hlt0)

/-- On a reachable index, a document one of whose terms misses some
document yields an all-finite normalised document TF-IDF vector. -/
theorem doc_vec_ok {st : PositionList} (h : Reachable st) {d : Nat}
    (hd : ∃ t ∈ (alGet st.doc_terms d).getD [],
      ∃ n, get_document_frequency st t = some n ∧ n < st.document_count) :
    AllSome (get_doc_tfidf_vector_f st d) := by
  have h5 := (reachable_inv h).2.2.2.2.1
  have htf_of_mem : ∀ term ∈ (alGet st.doc_terms d).getD [],
      ∃ m, get_term_frequency st term d = some m ∧ 1 ≤ m := by
    intro term hterm
    have htf : (alGet st.term_frequency (term, d)).isSome := (h5 d term).1 hterm
    obtain ⟨m, hm⟩ := Option.isSome_iff_exists.1 htf
    have hm' : get_term_frequency st term d = some m := hm
    exact ⟨m, hm', reachable_tf_pos h hm'⟩
  have hw : ∀ term ∈ (alGet st.doc_terms d).getD [],
      (tfidf_weight_f st ((get_term_frequency st term d).getD 0) term).isSome := by
    intro term hterm
    obtain ⟨m, hm', hfreq⟩ := htf_of_mem term hterm
    obtain ⟨n, hdf, hn, hN⟩ := reachable_df_of_tf h (by rw [hm']; rfl)
    rw [show (get_term_frequency st term d).getD 0 = m from by rw [hm']; rfl]
    rw [tfidf_weight_f_some hfreq hdf hn hN]
    rfl
  show AllSome (vec_normalize_f (((alGet st.doc_terms d).getD []).foldl
    (fun v term =>
      (vec_set_f v term
        (tfidf_weight_f st ((get_term_frequency st term d).getD 0) term)).1) []))
  apply vec_normalize_f_all_some
  · exact vec_set_fold_all_some (fun t => t)
      (fun term => tfidf_weight_f st ((get_term_frequency st term d).getD 0) term)
      ((alGet st.doc_terms d).getD []) [] (fun p hp => absurd hp (List.not_mem_nil p)) hw
  · obtain ⟨t0, ht0, n0, hdf0, hlt0⟩ := hd
    obtain ⟨m0, hm0, hfreq0⟩ := htf_of_mem t0 ht0
    obtain ⟨hn0, hN⟩ := reachable_df_pos h hdf0
    have hin := vec_set_fold_mem (fun (t : Nat) => t)
      (fun term => tfidf_weight_f st ((get_term_frequency st term d).getD 0) term) t0
      ((alGet st.doc_terms d).getD []) [] ht0
      (fun a _ hk => by rw [show a = t0 from hk]) rfl
    refine ⟨_, hin, (Real.logb 2 ((m0 : ℕ) : ℝ) + 1) *
      Real.logb 2 ((st.document_count : ℝ) / ((n0 : ℕ) : ℝ)), ?_, ?_⟩
    · show tfidf_weight_f st ((get_term_frequency st t0 d).getD 0) t0 =
        some ((Real.logb 2 ((m0 : ℕ) : ℝ) + 1) *
          Real.logb 2 ((st.document_count : ℝ) / ((n0 : ℕ) : ℝ)))
      rw [show (get_term_frequency st t0 d).getD 0 = m0 from by rw [hm0]; rfl]
      exact tfidf_weight_f_some hfreq0 hdf0 hn0 hN
    · exact ne_of_gt (tfidf_weight_pos hfreq0 hn0 hlt0)

/-- A `DocScore` whose `f32` score is NaN-tracked. -/
structure FDocScore where
  docid : Nat
  score : Option ℝ

/-- `VectorSpaceModel::rank_vsm` under the NaN-tracking semantics,
without the final (score-permuting) sort. -/
noncomputable def rank_vsm_f (st : PositionList) (term_ids : List Nat) : List FDocScore :=
  if term_ids.length = 0 then []
  else
    let query_tfidf := get_phrase_tfidf_vector_f st term_ids
    (docs_contain_any st term_ids).filterMap
      (fun doc_id =>
        if is_valid_doc_id st doc_id then
          some (FDocScore.mk doc_id (vec_dot_f query_tfidf (get_doc_tfidf_vector_f st doc_id)))
        else none)

/-- The one-document index over `[1]`, on which `rank_vsm` produces a
NaN score for the indexed query `[1]`. -/
def idx1 : PositionList := (add_document PositionList.new [1]).1

theorem w_idx1 : tfidf_weight_f idx1 1 1 = some 0 := by
  simp only [tfidf_weight_f, show alGet idx1.document_frequency 1 = some 1 from rfl,
    show idx1.document_count = 1 from rfl, Option.getD_some, Nat.cast_one]
  simp [flog2, fdiv, fadd, fmul, Real.logb_one]

theorem qv_idx1 : get_phrase_tfidf_vector_f idx1 [1] = [(1, none)] := by
  simp only [get_phrase_tfidf_vector_f, show queryTermFreq [1] = [(1, 1)] from rfl,
    List.foldl_cons, List.foldl_nil]
  rw [show tfidf_weight_f idx1 ((1, 1) : Nat × Nat).2 ((1, 1) : Nat × Nat).1 =
    tfidf_weight_f idx1 1 1 from rfl, w_idx1]
  rw [show (vec_set_f [] 1 (some (0 : ℝ))).1 = [(1, some 0)] from rfl]
  simp [vec_normalize_f, vec_len_f, fadd, fmul, fsqrt, fdiv, Real.sqrt_zero]

theorem dv_idx1 : get_doc_tfidf_vector_f idx1 1 = [(1, none)] := by
  simp only [get_doc_tfidf_vector_f, show alGet idx1.doc_terms 1 = some [1] from rfl,
    Option.getD_some, List.foldl_cons, List.foldl_nil,
    show get_term_frequency idx1 1 1 = some 1 from rfl]
  rw [w_idx1]
  rw [show (vec_set_f [] 1 (some (0 : ℝ))).1 = [(1, some 0)] from rfl]
  simp [vec_normalize_f, vec_len_f, fadd, fmul, fsqrt, fdiv, Real.sqrt_zero]

theorem dot_idx1 : vec_dot_f [(1, none)] [(1, none)] = none := by
  simp [vec_dot_f, alGet, fmul, fadd]

/-- C7 counterexample: on the single-document index over `[1]` the
indexed, non-empty query `[1]` gets the NaN score: every TF-IDF weight
is `(log₂1+1)·log₂(1/1) = 0`, so both vectors normalise by
`‖·‖ = 0` and `0.0/0.0` is NaN. -/
theorem claim7_counterexample :
    Reachable idx1 ∧ (∀ t ∈ [1], (get_document_frequency idx1 t).isSome) ∧
    FDocScore.mk 1 none ∈ rank_vsm_f idx1 [1] := by
  refine ⟨Reachable.add _ _ Reachable.new, by decide, ?_⟩
  simp only [rank_vsm_f]
  rw [if_neg (by norm_num : ¬ ([1] : List Nat).length = 0)]
  rw [qv_idx1, show docs_contain_any idx1 [1] = [1] from rfl]
  simp only [List.filterMap_cons, List.filterMap_nil]
  rw [show is_valid_doc_id idx1 1 = true from rfl]
  rw [dv_idx1, dot_idx1]
  simp

/-- C7 (amended).  On a reachable index, if every query term is indexed,
some query term misses at least one document, and every retrieved
document contains some term missing at least one document, then every
score produced by the VSM ranking is a finite number (no NaN): under
these hypotheses both normalisations divide by a positive length. -/
theorem claim7_vsm_no_nan (st : PositionList) (h : Reachable st) (term_ids : List Nat)
    (hq1 : ∀ t ∈ term_ids, (get_document_frequency st t).isSome)
    (hq2 : ∃ t ∈ term_ids, ∃ n, get_document_frequency st t = some n ∧
      n < st.document_count)
    (hd : ∀ d ∈ docs_contain_any st term_ids,
      ∃ t ∈ (alGet st.doc_terms d).getD [],
        ∃ n, get_document_frequency st t = some n ∧ n < st.document_count) :
    ∀ ds ∈ rank_vsm_f st term_ids, ds.score.isSome := by
  intro ds hds
  simp only [rank_vsm_f] at hds
  by_cases hlen : term_ids.length = 0
  · rw [if_pos hlen] at hds
    cases hds
  · rw [if_neg hlen] at hds
    simp only [List.mem_filterMap] at hds
    obtain ⟨doc_id, hdoc, hsome⟩ := hds
    by_cases hvalid : is_valid_doc_id st doc_id = true
    · rw [if_pos hvalid] at hsome
      obtain rfl := Option.some.inj hsome
      exact vec_dot_f_some (query_vec_ok h hq1 hq2) (doc_vec_ok h (hd doc_id hdoc))
    · rw [if_neg hvalid] at hsome
      cases hsome

/-- The two-document index over `[1]`, `[2]`. -/
def idx2 : PositionList := (add_document idx1 [2]).1

/-- Witness for the amended C7 on the two-document index `[1]`, `[2]`
with query `[1]`: `df(1) = 1 < 2 = N`, and each document contains such a
term, so the score of the one retrieved document (document 1) is not
NaN. -/
theorem claim7_witness :
    (vec_dot_f (get_phrase_tfidf_vector_f idx2 [1])
      (get_doc_tfidf_vector_f idx2 1)).isSome := by
  refine claim7_vsm_no_nan idx2
    (Reachable.add _ _ (Reachable.add _ _ Reachable.new)) [1]
    (by decide)
    ⟨1, by decide, 1, rfl, by decide⟩
    (by
      intro d hd
      rw [show docs_contain_any idx2 [1] = [1] from rfl] at hd
      simp only [List.mem_singleton] at hd
      subst hd
      exact ⟨1, by decide, 1, rfl, by decide⟩)
    (FDocScore.mk 1 (vec_dot_f (get_phrase_tfidf_vector_f idx2 [1])
      (get_doc_tfidf_vector_f idx2 1))) ?_
  simp only [rank_vsm_f]
  rw [if_neg (by norm_num : ¬ ([1] : List Nat).length = 0)]
  rw [show docs_contain_any idx2 [1] = [1] from rfl]
  simp only [List.filterMap_cons, List.filterMap_nil]
  rw [show is_valid_doc_id idx2 1 = true from rfl]
  simp

end Rir
